import Mathlib

/-!
ILI9341 LCD driver: initialisation sequencer and transmit protocol.

Shallow embedding of `src/lib/ili9341.c` (8080-I parallel interface, AVR) and of
`src/lib/spi_hal.c`.

* The four memory-mapped registers the driver touches are a record of naturals; every
  store truncates to 8 bits (`% 256`).
* `int` is the 16-bit AVR `int`: `1 << p` and `~x` are computed on 16-bit patterns.
* A plain `char` is modelled as an integer; the flag `sgn` says whether plain `char` is
  signed (the avr-gcc default) or unsigned (`-funsigned-char`), and nothing proved below
  depends on the choice.
* Program memory is a function from addresses to bytes; `commands` is an offset from
  the start of the table, so a read past the table's end returns whatever lies there.
* Every function returns the list of events it produced, oldest first, together with
  the register state on return.  `while` loops carry fuel; running out of fuel is `none`.
-/

namespace ILI9341

/-! ## Data model -/

/-- The four memory-mapped registers of the parallel interface. -/
inductive Reg where
  | ddrControl
  | portControl
  | ddrData
  | portData
deriving DecidableEq, Repr

/-- Values of `ILI9341_DDR_CONTROL`, `ILI9341_PORT_CONTROL`, `ILI9341_DDR_DATA` and
`ILI9341_PORT_DATA`. -/
structure Regs where
  ddrControl : Nat
  portControl : Nat
  ddrData : Nat
  portData : Nat
deriving DecidableEq, Repr

/-- Bit positions `ILI9341_PIN_RST`, `ILI9341_PIN_CS`, `ILI9341_PIN_RS`,
`ILI9341_PIN_WR`, `ILI9341_PIN_RD` inside the control port.  The header that fixes them
is not among the sources, so they are a parameter of every definition. -/
structure Pins where
  rst : Nat
  cs : Nat
  rs : Nat
  wr : Nat
  rd : Nat
deriving DecidableEq, Repr

/-- Observable events of a run, in program order. -/
inductive Event where
  /-- The fetch `pgm_read_byte(commands + idx)` returned `val`. -/
  | read (idx : Nat) (val : Nat)
  /-- Entry into `ILI9341_TransmitCmmd` with the given `char` argument. -/
  | cmmd (c : Int)
  /-- Entry into `ILI9341_TransmitData` with the given `char` argument. -/
  | data (c : Int)
  /-- A store of the 8-bit value `v` to register `r`. -/
  | write (r : Reg) (v : Nat)
  /-- One call `_delay_us(n)`. -/
  | delayUs (n : Nat)
  /-- One call `_delay_ms(n)`. -/
  | delayMs (n : Nat)
deriving DecidableEq, Repr

/-! ## Machine arithmetic -/

/-- Conversion of an integer to plain `char`: two's-complement wrap into `-128..127`
when `char` is signed, reduction into `0..255` when it is unsigned. -/
def toChar (sgn : Bool) (n : Int) : Int :=
  if sgn then (n + 128) % 256 - 128 else n % 256

/-- Conversion of an integer to `uint8_t`, as on a store to an 8-bit register. -/
def toU8 (n : Int) : Nat := (n % 256).toNat

/-- The 16-bit pattern of `(1 << p)`. -/
def bit (p : Nat) : Nat := (1 <<< p) % 65536

/-- The 16-bit pattern of `~x`. -/
def compl (x : Nat) : Nat := 65535 ^^^ (x % 65536)

/-- Result of `REG |= (1 << p)` on the register value `v`. -/
def setBit (v p : Nat) : Nat := (v ||| bit p) % 256

/-- Result of `REG &= ~(1 << p)` on the register value `v`. -/
def clrBit (v p : Nat) : Nat := (v &&& compl (bit p)) % 256

/-- Level of line `p` in a port value. -/
def high (v p : Nat) : Bool := v.testBit p

/-- Effect of one event on the registers (only stores change them). -/
def Regs.step (s : Regs) : Event → Regs
  | .write .ddrControl v => { s with ddrControl := v }
  | .write .portControl v => { s with portControl := v }
  | .write .ddrData v => { s with ddrData := v }
  | .write .portData v => { s with portData := v }
  | _ => s

/-- Register states reached after each event of a trace, starting from `s`. -/
def states (s : Regs) : List Event → List Regs
  | [] => []
  | e :: es => s.step e :: states (s.step e) es

/-! ## Program memory and the built-in table -/

/-- Modelled from the spec: the opcode macros live in `ili9341.h`, which is not among
the sources; each value is the one the comment above its record in `INIT_ILI9341`
documents (`0x01 -> Software reset`, and so on). -/
def ILI9341_SWRESET : Nat := 0x01
/-- Modelled from the spec: header macro, value from the comment `0x28 -> Display OFF`. -/
def ILI9341_DISPOFF : Nat := 0x28
/-- Modelled from the spec: header macro, value from the comment `0xC0 -> Power Control 1`. -/
def ILI9341_PWCR1 : Nat := 0xC0
/-- Modelled from the spec: header macro, value from the comment `0xC1 -> Power Control 2`. -/
def ILI9341_PWCR2 : Nat := 0xC1
/-- Modelled from the spec: header macro, value from the comment `0xC5 -> VCOM Control 1`. -/
def ILI9341_VCCR1 : Nat := 0xC5
/-- Modelled from the spec: header macro, value from the comment `0xC7 -> VCOM Control 2`. -/
def ILI9341_VCCR2 : Nat := 0xC7
/-- Modelled from the spec: header macro, value from the comment `0x3A -> Pixel Format Set`. -/
def ILI9341_COLMOD : Nat := 0x3A
/-- Modelled from the spec: header macro, value from the comment `0xB1 -> Frame Rate Control`. -/
def ILI9341_FRMCRN1 : Nat := 0xB1
/-- Modelled from the spec: header macro, value from the comment `0x26 -> Gamma Set`. -/
def ILI9341_GAMSET : Nat := 0x26
/-- Modelled from the spec: header macro, value from the comment `0xB7 -> Entry Mode Set`. -/
def ILI9341_ETMOD : Nat := 0xB7
/-- Modelled from the spec: header macro, value from the comment
`0xB6 -> Display Function Control`. -/
def ILI9341_DISCR : Nat := 0xB6
/-- Modelled from the spec: header macro, value from the comment
`0x36 -> Memory Access Control`. -/
def ILI9341_MADCTL : Nat := 0x36
/-- Modelled from the spec: header macro, value from the comment `0x11 -> Sleep Out`. -/
def ILI9341_SLPOUT : Nat := 0x11
/-- Modelled from the spec: header macro, value from the comment `0x29 -> Display on`. -/
def ILI9341_DISPON : Nat := 0x29

/-- The array `INIT_ILI9341`, byte for byte. -/
def INIT_ILI9341 : List Nat :=
  [ 14,
    0, 10, ILI9341_SWRESET,
    0, 0, ILI9341_DISPOFF,
    1, 0, ILI9341_PWCR1, 0x26,
    1, 0, ILI9341_PWCR2, 0x11,
    2, 0, ILI9341_VCCR1, 0x31, 0x3C,
    1, 0, ILI9341_VCCR2, 0xC0,
    1, 0, ILI9341_COLMOD, 0x55,
    2, 0, ILI9341_FRMCRN1, 0x00, 0x1B,
    2, 0, ILI9341_GAMSET, 0x00, 0x1B,
    1, 0, ILI9341_ETMOD, 0x07,
    4, 0, ILI9341_DISCR, 0x0A, 0x82, 0x27, 0x00,
    1, 0, ILI9341_MADCTL, 0x00,
    0, 150, ILI9341_SLPOUT,
    0, 20, ILI9341_DISPON ]

/-- Program memory seen from the start of a table: the table's bytes, then whatever
the linker placed behind it (`beyond`). -/
def flashOf (tbl : List Nat) (beyond : Nat → Nat) (i : Nat) : Nat :=
  tbl.getD i (beyond i)

/-- The byte `pgm_read_byte` fetches at offset `i`. -/
def pgm_read_byte (flash : Nat → Nat) (i : Nat) : Nat := flash i % 256

/-! ## The driver -/

/-- The function `ILI9341_TransmitCmmd`. -/
def ILI9341_TransmitCmmd (p : Pins) (cmmd : Int) (s : Regs) : List Event × Regs :=
  -- enable chip select -> LOW
  let c1 := clrBit s.portControl p.cs
  -- D/C -> LOW
  let c2 := clrBit c1 p.rs
  -- set command on PORT
  let d := toU8 cmmd
  -- WR -> LOW
  let c3 := clrBit c2 p.wr
  -- WR -> HIGH
  let c4 := setBit c3 p.wr
  -- D/C -> HIGH
  let c5 := setBit c4 p.rs
  -- disable chip select -> HIGH
  let c6 := setBit c5 p.cs
  ([.cmmd cmmd, .write .portControl c1, .write .portControl c2, .write .portData d,
    .write .portControl c3, .write .portControl c4, .write .portControl c5,
    .write .portControl c6],
   { s with portControl := c6, portData := d })

/-- The function `ILI9341_TransmitData`. -/
def ILI9341_TransmitData (p : Pins) (data : Int) (s : Regs) : List Event × Regs :=
  -- enable chip select -> LOW
  let c1 := clrBit s.portControl p.cs
  -- D/C -> HIGH
  let c2 := setBit c1 p.rs
  -- set data on PORT
  let d := toU8 data
  -- WR -> LOW
  let c3 := clrBit c2 p.wr
  -- WR -> HIGH
  let c4 := setBit c3 p.wr
  -- disable chip select -> HIGH
  let c5 := setBit c4 p.cs
  ([.data data, .write .portControl c1, .write .portControl c2, .write .portData d,
    .write .portControl c3, .write .portControl c4, .write .portControl c5],
   { s with portControl := c5, portData := d })

/-- The function `ILI9341_InitPortsWithRES`. -/
def ILI9341_InitPortsWithRES (p : Pins) (s : Regs) : List Event × Regs :=
  -- set control pins as output
  let d1 := (s.ddrControl ||| bit p.rst ||| bit p.wr ||| bit p.rs ||| bit p.rd
              ||| bit p.wr) % 256
  -- delay > 10us, then set Reset HIGH
  let c1 := setBit s.portControl p.rst
  -- set HIGH Level on all pins
  let c2 := (c1 ||| (c1 ||| bit p.wr ||| bit p.rs ||| bit p.rd ||| bit p.wr)) % 256
  -- set all pins as output
  let d2 := 0xFF
  ([.write .ddrControl d1, .delayUs 100, .write .portControl c1, .write .portControl c2,
    .write .ddrData d2],
   { ddrControl := d1, portControl := c2, ddrData := d2, portData := s.portData })

/-- The loop `while (time--) _delay_ms(1);` of `ILI9341_Delay`; `time` is an
`unsigned short`. -/
def delayLoop : Nat → Nat → Option (List Event)
  | 0, _ => none
  | fuel + 1, time =>
    if time = 0 then some []
    else (delayLoop fuel ((time + 65535) % 65536)).map (Event.delayMs 1 :: ·)

/-- The function `ILI9341_Delay`; the argument is converted to `unsigned short`. -/
def ILI9341_Delay (time : Nat) : Option (List Event) :=
  delayLoop 65537 (time % 65536)

/-- The loop `while (no_of_arguments--) ILI9341_TransmitData(pgm_read_byte(commands++));`
of `ILI9341_Init`.  `n` is the `char` counter, `i` the offset `commands` points at; the
result also carries the offset reached. -/
def argLoop (flash : Nat → Nat) (p : Pins) (sgn : Bool) :
    Nat → Int → Nat → Regs → Option (List Event × Nat × Regs)
  | 0, _, _, _ => none
  | fuel + 1, n, i, s =>
    if n = 0 then some ([], i, s)
    else
      let n1 := toChar sgn (n - 1)
      let b := pgm_read_byte flash i
      let (t1, s1) := ILI9341_TransmitData p (toChar sgn b) s
      (argLoop flash p sgn fuel n1 (i + 1) s1).map
        fun (t2, j, s2) => (Event.read i b :: t1 ++ t2, j, s2)

/-- The loop `while (no_of_commands--) { ... }` of `ILI9341_Init`.  `n` is the
`unsigned short` counter, `i` the offset `commands` points at. -/
def cmdLoop (flash : Nat → Nat) (p : Pins) (sgn : Bool) :
    Nat → Nat → Nat → Regs → Option (List Event × Regs)
  | 0, _, _, _ => none
  | fuel + 1, n, i, s =>
    if n = 0 then some ([], s)
    else
      let n1 := (n + 65535) % 65536
      -- number of arguments
      let a := pgm_read_byte flash i
      let no_of_arguments := toChar sgn a
      -- delay
      let delay := pgm_read_byte flash (i + 1)
      -- command
      let c := pgm_read_byte flash (i + 2)
      let command := toChar sgn c
      -- send command
      let (t1, s1) := ILI9341_TransmitCmmd p command s
      -- send arguments
      (argLoop flash p sgn 256 no_of_arguments (i + 3) s1).bind fun (t2, j, s2) =>
      -- delay
      (ILI9341_Delay delay).bind fun t3 =>
      (cmdLoop flash p sgn fuel n1 j s2).map fun (t4, s4) =>
        (Event.read i a :: Event.read (i + 1) delay :: Event.read (i + 2) c ::
          t1 ++ t2 ++ t3 ++ t4, s4)

/-- The function `ILI9341_Init`, with the program memory behind `commands` as a parameter
(`flashOf INIT_ILI9341 beyond` for the driver as built). -/
def ILI9341_Init (flash : Nat → Nat) (p : Pins) (sgn : Bool) (s : Regs) :
    Option (List Event × Regs) :=
  -- number of commands
  let k := pgm_read_byte flash 0
  let no_of_commands := k % 65536
  -- Init ports with Reset
  let (t1, s1) := ILI9341_InitPortsWithRES p s
  -- loop through commands
  (cmdLoop flash p sgn 65537 no_of_commands 1 s1).map fun (t2, s2) =>
    (Event.read 0 k :: t1 ++ t2, s2)

/-! ## The serial transport (`spi_hal.c`)

The transfer-complete interrupt is the only asynchronous actor.  The hardware is a
parameter: `hw k` describes the completion of the `k`-th byte written to `SPDR`
(counting from 0): how many times the wait loop tests the flag before the handler runs,
and what `SPSR` and `SPDR` hold when it runs; `none` means the completion never comes.
Interrupts are taken to be enabled, as `main` does with `sei()` after `spi_master_init`.
`tx` and `rx` are taken to be disjoint buffers. -/

namespace SpiHal

/-- What the hardware presents when the transfer of one byte completes. -/
structure HwResp where
  latency : Nat
  spsr : Nat
  spdr : Nat
deriving DecidableEq, Repr

/-- State of the transport: `PORTB`, the two `volatile` globals, the receive buffer,
and the number of bytes written to `SPDR` so far (to address `hw`). -/
structure Spi where
  portB : Nat
  spi_rx_data : Nat
  spi_txrx_done : Nat
  rx : Nat → Nat
  sent : Nat

/-- Observable events of the transport, in program order. -/
inductive SpiEvent where
  /-- A store of `v` to `PORTB`. -/
  | writePortB (v : Nat)
  /-- One call `_delay_us(n)`. -/
  | delayUs (n : Nat)
  /-- The store `spi_txrx_done = 0`. -/
  | clearDone
  /-- The store `SPDR = b`. -/
  | writeSPDR (b : Nat)
  /-- One evaluation of the loop test `spi_txrx_done == 0`, with the value read. -/
  | poll (flag : Nat)
  /-- One run of the handler `SPI_STC_vect`, with the `SPSR` and `SPDR` it saw. -/
  | isr (spsr spdr : Nat)
  /-- The store `rx[i] = v`. -/
  | store (i v : Nat)
deriving DecidableEq, Repr

/-- The handler `ISR(SPI_STC_vect)`. -/
def SPI_STC_vect (r : HwResp) (st : Spi) : Spi :=
  if (r.spsr % 256) &&& 0x40 ≠ 0 then
    let st1 := { st with spi_rx_data := r.spdr % 256 }
    let st2 := { st1 with spi_rx_data := 0 }
    { st2 with spi_txrx_done := 1 }
  else
    let st1 := { st with spi_rx_data := r.spdr % 256 }
    { st1 with spi_txrx_done := 1 }

/-- The loop `while (spi_txrx_done == 0);` of `spi_send`, with the handler running after
`k` more tests of the flag.  A flag still 0 after the handler ran would spin for ever. -/
def waitDone (r : HwResp) : Nat → Spi → Option (List SpiEvent × Spi)
  | 0, st =>
    let st1 := SPI_STC_vect r st
    if st1.spi_txrx_done = 0 then none
    else some ([.isr r.spsr r.spdr, .poll st1.spi_txrx_done], st1)
  | k + 1, st =>
    if st.spi_txrx_done = 0 then
      (waitDone r k st).map fun (t, st1) => (SpiEvent.poll 0 :: t, st1)
    else some ([.poll st.spi_txrx_done], st)

/-- The call `spi_send(&tx[i], &rx[i])`. -/
def spi_send (hw : Nat → Option HwResp) (tx : Nat → Nat) (i : Nat) (st : Spi) :
    Option (List SpiEvent × Spi) :=
  let st1 := { st with spi_txrx_done := 0 }
  let b := tx i % 256
  let st2 := { st1 with sent := st1.sent + 1 }
  match hw st.sent with
  | none => none
  | some r =>
    (waitDone r r.latency st2).map fun (t, st3) =>
      let v := st3.spi_rx_data
      (SpiEvent.clearDone :: SpiEvent.writeSPDR b :: t ++ [SpiEvent.store i v],
        { st3 with rx := fun j => if j = i then v else st3.rx j })

/-- The loop `for (uint16_t i = 0; i < len; i++) spi_send(&tx[i], &rx[i]);`. -/
def transferLoop (hw : Nat → Option HwResp) (tx : Nat → Nat) (len : Nat) :
    Nat → Nat → Spi → Option (List SpiEvent × Spi)
  | 0, _, _ => none
  | fuel + 1, i, st =>
    if i < len then
      (spi_send hw tx i st).bind fun (t1, st1) =>
      (transferLoop hw tx len fuel ((i + 1) % 65536) st1).map fun (t2, st2) =>
        (t1 ++ t2, st2)
    else some ([], st)

/-- The function `spi_transfer(tx, rx, len)`; `pb2` is the toolchain constant `PORTB2` and `len` is
converted to `uint16_t`. -/
def spi_transfer (pb2 : Nat) (hw : Nat → Option HwResp) (tx : Nat → Nat) (len : Nat)
    (st : Spi) : Option (List SpiEvent × Spi) :=
  -- DC low
  let b1 := clrBit st.portB pb2
  let st1 := { st with portB := b1 }
  (transferLoop hw tx (len % 65536) 65537 0 st1).map fun (t, st2) =>
    -- release spi bus (DC high)
    let b2 := setBit st2.portB pb2
    (SpiEvent.writePortB b1 :: SpiEvent.delayUs 100 :: t ++
        [SpiEvent.writePortB b2, SpiEvent.delayUs 100],
      { st2 with portB := b2 })

end SpiHal

/-! ## Notions used to state the properties -/

/-- One record of an init table: the post-command delay, the opcode and the argument
bytes; the `argCount` byte is the number of arguments. -/
structure InitRecord where
  delayMs : Nat
  opcode : Nat
  args : List Nat
deriving DecidableEq, Repr

/-- Binary layout of one record: `[argCount][delayMs][opcode][args...]`. -/
def InitRecord.bytes (r : InitRecord) : List Nat :=
  r.args.length :: r.delayMs :: r.opcode :: r.args

/-- Layout of a sequence of records, one after the other. -/
def recordBytes : List InitRecord → List Nat
  | [] => []
  | r :: rs => r.bytes ++ recordBytes rs

/-- Binary layout of a table: the count byte, then the records. -/
def tableBytes (recs : List InitRecord) : List Nat :=
  recs.length :: recordBytes recs

/-- Every field of the record fits in a byte. -/
def InitRecord.WellFormed (r : InitRecord) : Prop :=
  r.args.length < 256 ∧ r.delayMs < 256 ∧ r.opcode < 256 ∧ ∀ a ∈ r.args, a < 256

/-- A well-formed table: the count and every field of every record fit in a byte. -/
def WellFormed (recs : List InitRecord) : Prop :=
  recs.length < 256 ∧ ∀ r ∈ recs, r.WellFormed

instance (r : InitRecord) : Decidable r.WellFormed := by
  unfold InitRecord.WellFormed; infer_instance

instance (recs : List InitRecord) : Decidable (WellFormed recs) := by
  unfold WellFormed; infer_instance

/-- The records of `INIT_ILI9341`, as the source lays them out line by line. -/
def INIT_records : List InitRecord :=
  [ ⟨10, ILI9341_SWRESET, []⟩,
    ⟨0, ILI9341_DISPOFF, []⟩,
    ⟨0, ILI9341_PWCR1, [0x26]⟩,
    ⟨0, ILI9341_PWCR2, [0x11]⟩,
    ⟨0, ILI9341_VCCR1, [0x31, 0x3C]⟩,
    ⟨0, ILI9341_VCCR2, [0xC0]⟩,
    ⟨0, ILI9341_COLMOD, [0x55]⟩,
    ⟨0, ILI9341_FRMCRN1, [0x00, 0x1B]⟩,
    ⟨0, ILI9341_GAMSET, [0x00, 0x1B]⟩,
    ⟨0, ILI9341_ETMOD, [0x07]⟩,
    ⟨0, ILI9341_DISCR, [0x0A, 0x82, 0x27, 0x00]⟩,
    ⟨0, ILI9341_MADCTL, [0x00]⟩,
    ⟨150, ILI9341_SLPOUT, []⟩,
    ⟨20, ILI9341_DISPON, []⟩ ]

/-- Program memory holds the bytes `bs` from offset `i` on, as `pgm_read_byte` sees it. -/
def Holds (flash : Nat → Nat) (i : Nat) (bs : List Nat) : Prop :=
  ∀ j b, bs[j]? = some b → pgm_read_byte flash (i + j) = b

/-- Events of sending the argument bytes `as` stored from offset `i` on: for each byte
its fetch, then the `ILI9341_TransmitData` call. -/
def argsTrace (p : Pins) (sgn : Bool) : Nat → List Nat → Regs → List Event × Regs
  | _, [], s => ([], s)
  | i, a :: as, s =>
    let (t1, s1) := ILI9341_TransmitData p (toChar sgn a) s
    let (t2, s2) := argsTrace p sgn (i + 1) as s1
    (Event.read i a :: t1 ++ t2, s2)

/-- Events of applying the records `recs` stored from offset `i` on: for each record
the three header fetches, the `ILI9341_TransmitCmmd` call, the arguments, and `delayMs`
one-millisecond waits. -/
def recordsTrace (p : Pins) (sgn : Bool) : Nat → List InitRecord → Regs → List Event × Regs
  | _, [], s => ([], s)
  | i, r :: rs, s =>
    let (t1, s1) := ILI9341_TransmitCmmd p (toChar sgn r.opcode) s
    let (t2, s2) := argsTrace p sgn (i + 3) r.args s1
    let (t4, s4) := recordsTrace p sgn (i + 3 + r.args.length) rs s2
    (Event.read i r.args.length :: Event.read (i + 1) r.delayMs :: Event.read (i + 2) r.opcode ::
      t1 ++ t2 ++ List.replicate r.delayMs (Event.delayMs 1) ++ t4, s4)

/-- A transmit call, named by the byte it carries (the 8-bit pattern of its `char`
argument, which is what the call stores to the data port). -/
inductive Xfer where
  | command (b : Nat)
  | argument (b : Nat)
deriving DecidableEq, Repr

/-- The transmit calls of a trace, in order. -/
def transmits : List Event → List Xfer
  | [] => []
  | .cmmd c :: es => .command (toU8 c) :: transmits es
  | .data c :: es => .argument (toU8 c) :: transmits es
  | _ :: es => transmits es

/-- The transmit calls a list of records asks for: per record the opcode as a command,
then its arguments in stored order. -/
def expectedTransmits : List InitRecord → List Xfer
  | [] => []
  | r :: rs => .command r.opcode :: r.args.map .argument ++ expectedTransmits rs

/-- The offsets fetched with `pgm_read_byte`, in order. -/
def readIdx : List Event → List Nat
  | [] => []
  | .read i _ :: es => i :: readIdx es
  | _ :: es => readIdx es

/-- The bytes fetched with `pgm_read_byte`, in order. -/
def readVals : List Event → List Nat
  | [] => []
  | .read _ v :: es => v :: readVals es
  | _ :: es => readVals es

/-- Total of the `_delay_ms` waits of a trace, in milliseconds. -/
def msWaits : List Event → Nat
  | [] => 0
  | .delayMs n :: es => n + msWaits es
  | _ :: es => msWaits es

/-- Sum of the `delayMs` fields of a list of records. -/
def totalDelay : List InitRecord → Nat
  | [] => 0
  | r :: rs => r.delayMs + totalDelay rs


/-- Port value with the chip-select, data/command and write-strobe lines raised. -/
def idle (p : Pins) (v : Nat) : Nat := (v ||| bit p.cs ||| bit p.rs ||| bit p.wr) % 256

/-- Value `ILI9341_InitPortsWithRES` stores to the control direction register. -/
def dirMask (p : Pins) (v : Nat) : Nat :=
  (v ||| bit p.rst ||| bit p.wr ||| bit p.rs ||| bit p.rd ||| bit p.wr) % 256

/-- Value of the control port when `ILI9341_InitPortsWithRES` returns. -/
def raised (p : Pins) (v : Nat) : Nat :=
  (setBit v p.rst ||| (setBit v p.rst ||| bit p.wr ||| bit p.rs ||| bit p.rd ||| bit p.wr)) % 256

/-- Registers after transmit calls whose last byte was `d` (`none`: no call at all). -/
def settle (p : Pins) : Option Nat → Regs → Regs
  | none, s => s
  | some d, s => { s with portControl := idle p s.portControl, portData := d }

/-- The last byte a list of records puts on the data port, if any. -/
def lastByte : List InitRecord → Option Nat
  | [] => none
  | r :: rs => some ((lastByte rs).getD (r.args.getLast?.getD r.opcode))

/-- Entry into `ILI9341_TransmitCmmd`. -/
def isCmmd : Event → Bool
  | .cmmd _ => true
  | _ => false

/-- A delay call of either unit. -/
def isDelay : Event → Bool
  | .delayUs _ => true
  | .delayMs _ => true
  | _ => false

/-- A store to the control port that puts the reset line at level `lvl`. -/
def rstDriven (p : Pins) (lvl : Bool) : Event → Bool
  | .write .portControl v => v.testBit p.rst == lvl
  | _ => false

/-- The part of a trace before the first `ILI9341_TransmitCmmd` call. -/
def beforeFirstCmmd (tr : List Event) : List Event :=
  tr.takeWhile fun e => !isCmmd e

/-- Whether events satisfying the given tests occur in the trace in the given order
(other events may lie between them). -/
def occursInOrder : List (Event → Bool) → List Event → Bool
  | [], _ => true
  | _ :: _, [] => false
  | q :: qs, e :: es => if q e then occursInOrder qs es else occursInOrder (q :: qs) es

/-- The electrical reset sequence: reset line high, delay, low, delay, high, delay. -/
def resetSequence (p : Pins) : List (Event → Bool) :=
  [rstDriven p true, isDelay, rstDriven p false, isDelay, rstDriven p true, isDelay]

/-- The table of the scenario "one record declaring one argument, none stored". -/
def malformedTable : List Nat := [1, 1, 150, 0x11]

/-- What `spi_rx_data` holds once the handler has served a completion: the received
byte, or 0 when bit 6 of `SPSR` is set. -/
def SpiHal.received (r : SpiHal.HwResp) : Nat :=
  if (r.spsr % 256) &&& 0x40 ≠ 0 then 0 else r.spdr % 256

/-- One send cycle for the byte `b` at index `i`: clear the flag, write the transmit
register, test the flag (`latency` times in vain, then the handler runs and the next
test succeeds), store the received value to `rx[i]`. -/
def SpiHal.cycle (r : SpiHal.HwResp) (b i : Nat) : List SpiHal.SpiEvent :=
  .clearDone :: .writeSPDR b ::
    (List.replicate r.latency (SpiHal.SpiEvent.poll 0) ++
      [.isr r.spsr r.spdr, .poll 1, .store i (SpiHal.received r)])

/-- The send cycles for `n` consecutive bytes starting at index `i`. -/
def SpiHal.cycles (resp : Nat → SpiHal.HwResp) (tx : Nat → Nat) : Nat → Nat →
    List SpiHal.SpiEvent
  | 0, _ => []
  | n + 1, i => SpiHal.cycle (resp i) (tx i % 256) i ++ SpiHal.cycles resp tx n (i + 1)

/-- A store to `PORTB`. -/
def SpiHal.isPortWrite : SpiHal.SpiEvent → Bool
  | .writePortB _ => true
  | _ => false

/-- A transport state for concrete runs: `PORTB` all ones, receive buffer filled with
0xEE. -/
def SpiHal.sampleSpi : SpiHal.Spi := ⟨0xFF, 0, 0, fun _ => 0xEE, 0⟩

/-- Hardware that completes every byte at once and presents 0x5A with the
write-collision bit (0x40) of `SPSR` set. -/
def SpiHal.collidingHw : Nat → Option SpiHal.HwResp := fun _ => some ⟨0, 0x40, 0x5A⟩

/-- Hardware of the two-byte scenario: the answer to byte `k` is `0x50 + k`, after `k`
vain tests of the flag, status clear. -/
def SpiHal.scenarioResp : Nat → SpiHal.HwResp := fun k => ⟨k, 0, 0x50 + k⟩

/-- The transmit buffer `[0xAA, 0xBB]`. -/
def SpiHal.scenarioTx : Nat → Nat := fun i => [0xAA, 0xBB].getD i 0

/-- Levels of the chip-select, data/command and write-strobe lines, and the value on
the data bus, in a register state. -/
def lines (p : Pins) (t : Regs) : Bool × Bool × Bool × Nat :=
  (high t.portControl p.cs, high t.portControl p.rs, high t.portControl p.wr, t.portData)

/-- The register an event stores to, if the event is a store. -/
def target : Event → Option Reg
  | .write r _ => some r
  | _ => none

/-- The events that follow the first `ILI9341_TransmitCmmd` call carrying the byte
`op`, if there is such a call. -/
def afterCmmd (op : Nat) : List Event → Option (List Event)
  | [] => none
  | .cmmd c :: es => if toU8 c = op then some es else afterCmmd op es
  | _ :: es => afterCmmd op es

/-- The byte of the first `ILI9341_TransmitCmmd` call of a trace, if any. -/
def firstCmmd : List Event → Option Nat
  | [] => none
  | .cmmd c :: _ => some (toU8 c)
  | _ :: es => firstCmmd es

/-- The records the sequencer finds when it walks program memory: `n` records from
offset `i` on, each as long as its own `argCount` byte says. -/
def parseRecs (flash : Nat → Nat) : Nat → Nat → List InitRecord
  | 0, _ => []
  | n + 1, i =>
    ⟨pgm_read_byte flash (i + 1), pgm_read_byte flash (i + 2),
      (List.range (pgm_read_byte flash i)).map fun k => pgm_read_byte flash (i + 3 + k)⟩ ::
      parseRecs flash n (i + 3 + pgm_read_byte flash i)

/-- The bytes left behind the complete records do not hold one more complete record:
fewer than three header bytes, or a header whose `argCount` exceeds the bytes that
remain. -/
def incomplete : List Nat → Bool
  | a :: _ :: _ :: rest => decide (rest.length < a)
  | _ => true

/-- The transmit calls and millisecond waits of a trace, in order (fetches, stores and
microsecond delays left out). -/
def calls : List Event → List Event
  | [] => []
  | .cmmd c :: es => .cmmd c :: calls es
  | .data c :: es => .data c :: calls es
  | .delayMs n :: es => .delayMs n :: calls es
  | _ :: es => calls es

/-- The transmit calls and millisecond waits a list of records asks for. -/
def recordCalls (sgn : Bool) : List InitRecord → List Event
  | [] => []
  | r :: rs =>
    .cmmd (toChar sgn r.opcode) ::
      (r.args.map (fun a => Event.data (toChar sgn a)) ++
        (List.replicate r.delayMs (Event.delayMs 1) ++ recordCalls sgn rs))

/-- A register state with every control line high except the write strobe (bit 1 of
the sample pins), and 0 on the data port. -/
def strobeLowEntry : Regs := ⟨0b10111, 0b11101, 0xFF, 0x00⟩

/-- A register state with every control line of the sample pins high (idle) and 0x3C
on the data port. -/
def idleEntry : Regs := ⟨0b10111, 0b11111, 0xFF, 0x3C⟩

/-- The level the microcontroller drives on the reset line in a register state: the
port bit when the direction bit makes the pin an output, `none` when the pin is an input
and the line is not driven. -/
def rstLine (p : Pins) (t : Regs) : Option Bool :=
  if high t.ddrControl p.rst then some (high t.portControl p.rst) else none

/-- Hardware that completes the transfer of byte 0 and never signals the completion of
any later byte. -/
def SpiHal.stallingHw : Nat → Option SpiHal.HwResp :=
  fun k => if k = 0 then some ⟨0, 0, 0x50⟩ else none

/-- A sample pin assignment (RST 4, CS 3, RS 2, WR 1, RD 0) for concrete runs. -/
def samplePins : Pins := ⟨4, 3, 2, 1, 0⟩

/-- The register values after a power-on reset of the microcontroller: all zero. -/
def powerOn : Regs := ⟨0, 0, 0, 0⟩

/-- The register values a first run of `ILI9341_Init` leaves from the power-on state
with the sample pins: every control line high, data port on the last opcode. -/
def afterFirstRun : Regs := ⟨0b10111, 0b11111, 0xFF, 0x29⟩

/-- A one-record table whose record carries 200 argument bytes (an `argCount` above
127). -/
def wideRecords : List InitRecord := [⟨0, 0x2C, List.replicate 200 0xAB⟩]

/-! ## Machine arithmetic: basic facts -/

theorem testBit_bit (p i : Nat) : (bit p).testBit i = (decide (i < 16) && decide (i = p)) := by
  unfold bit
  rw [show (65536 : Nat) = 2 ^ 16 by norm_num, Nat.testBit_mod_two_pow, Nat.one_shiftLeft,
    Nat.testBit_two_pow]
  by_cases h : p = i <;> simp [h, eq_comm]

theorem testBit_compl_bit (p i : Nat) :
    (compl (bit p)).testBit i = (decide (i < 16) && !decide (i = p)) := by
  unfold compl
  have h1 : bit p % 65536 = bit p := by unfold bit; simp
  rw [h1, Nat.testBit_xor, testBit_bit, show (65535 : Nat) = 2 ^ 16 - 1 by norm_num,
    Nat.testBit_two_pow_sub_one]
  by_cases h : i < 16 <;> by_cases h2 : i = p <;> simp [h, h2]

theorem testBit_mod256 (v i : Nat) : (v % 256).testBit i = (decide (i < 8) && v.testBit i) := by
  rw [show (256 : Nat) = 2 ^ 8 by norm_num, Nat.testBit_mod_two_pow]

theorem testBit_setBit (v p i : Nat) :
    (setBit v p).testBit i = (decide (i < 8) && (v.testBit i || decide (i = p))) := by
  unfold setBit
  rw [testBit_mod256, Nat.testBit_lor, testBit_bit]
  by_cases h : i < 8
  · have : i < 16 := by omega
    simp [h, this]
  · simp [h]

theorem testBit_clrBit (v p i : Nat) :
    (clrBit v p).testBit i = (decide (i < 8) && (v.testBit i && !decide (i = p))) := by
  unfold clrBit
  rw [testBit_mod256, Nat.testBit_land, testBit_compl_bit]
  by_cases h : i < 8
  · have : i < 16 := by omega
    simp [h, this]
  · simp [h]

theorem toU8_toChar (sgn : Bool) (n : Int) : toU8 (toChar sgn n) = toU8 n := by
  unfold toU8 toChar
  cases sgn
  · simp
  · simp only [if_true]
    congr 1
    omega

theorem toU8_ofNat (b : Nat) (h : b < 256) : toU8 (b : Int) = b := by
  unfold toU8
  omega

theorem toChar_eq_zero (sgn : Bool) (a : Nat) (h : a < 256) :
    toChar sgn (a : Int) = 0 ↔ a = 0 := by
  unfold toChar
  cases sgn <;> simp <;> omega

theorem toChar_pred (sgn : Bool) (a : Nat) :
    toChar sgn (toChar sgn ((a + 1 : Nat) : Int) - 1) = toChar sgn (a : Int) := by
  unfold toChar
  cases sgn <;> simp <;> omega

/-! ## The loops terminate and do what the table says -/

theorem delayLoop_eq (fuel t : Nat) (h1 : t < fuel) (h2 : t < 65536) :
    delayLoop fuel t = some (List.replicate t (Event.delayMs 1)) := by
  induction fuel generalizing t with
  | zero => omega
  | succ f ih =>
    cases t with
    | zero => simp [delayLoop]
    | succ k =>
      have hk : (k + 1 + 65535) % 65536 = k := by omega
      simp [delayLoop, hk, ih k (by omega) (by omega), List.replicate_succ]

theorem ILI9341_Delay_eq (t : Nat) (h : t < 65536) :
    ILI9341_Delay t = some (List.replicate t (Event.delayMs 1)) := by
  unfold ILI9341_Delay
  rw [Nat.mod_eq_of_lt h]
  exact delayLoop_eq 65537 t (by omega) h

theorem Holds.head {flash : Nat → Nat} {i b : Nat} {bs : List Nat}
    (h : Holds flash i (b :: bs)) : pgm_read_byte flash i = b := by
  have := h 0 b (by simp)
  simpa using this

theorem Holds.tail {flash : Nat → Nat} {i b : Nat} {bs : List Nat}
    (h : Holds flash i (b :: bs)) : Holds flash (i + 1) bs := by
  intro j c hj
  have := h (j + 1) c (by simpa using hj)
  rw [← this]
  congr 1
  omega

theorem Holds.left {flash : Nat → Nat} {i : Nat} {as bs : List Nat}
    (h : Holds flash i (as ++ bs)) : Holds flash i as := by
  intro j c hj
  apply h j c
  have hlt : j < as.length := by
    by_contra hge
    rw [List.getElem?_eq_none (by omega)] at hj
    cases hj
  rw [List.getElem?_append_left hlt]
  exact hj

theorem Holds.right {flash : Nat → Nat} {i : Nat} {as bs : List Nat}
    (h : Holds flash i (as ++ bs)) : Holds flash (i + as.length) bs := by
  intro j c hj
  have := h (as.length + j) c (by
    rw [List.getElem?_append_right (by omega)]
    simpa using hj)
  rw [← this]
  congr 1
  omega

theorem holds_flashOf (tbl : List Nat) (beyond : Nat → Nat) (h : ∀ b ∈ tbl, b < 256) :
    Holds (flashOf tbl beyond) 0 tbl := by
  intro j b hj
  have hb : b < 256 := h b (List.getElem?_mem hj)
  simp [pgm_read_byte, flashOf, List.getD, hj, Nat.mod_eq_of_lt hb]

theorem argLoop_eq (flash : Nat → Nat) (p : Pins) (sgn : Bool) (as : List Nat) :
    ∀ (fuel i : Nat) (s : Regs), as.length < fuel → as.length < 256 →
      Holds flash i as →
      argLoop flash p sgn fuel (toChar sgn (as.length : Int)) i s =
        some ((argsTrace p sgn i as s).1, i + as.length, (argsTrace p sgn i as s).2) := by
  induction as with
  | nil =>
    intro fuel i s h1 _ _
    cases fuel with
    | zero => simp at h1
    | succ f =>
      have hz : toChar sgn 0 = 0 := by cases sgn <;> simp [toChar]
      simp [argLoop, argsTrace, hz]
  | cons a as ih =>
    intro fuel i s h1 h2 h3
    cases fuel with
    | zero => simp at h1
    | succ f =>
      have hne : toChar sgn ((as.length + 1 : Nat) : Int) ≠ 0 := by
        rw [Ne, toChar_eq_zero sgn _ (by simpa using h2)]
        omega
      have hlen : ((a :: as).length : Int) = ((as.length + 1 : Nat) : Int) := by simp
      rw [hlen]
      simp only [argLoop, if_neg hne, toChar_pred, h3.head]
      rw [ih f (i + 1) _ (by simpa using h1) (by simp at h2; omega) h3.tail]
      simp [argsTrace, Nat.add_assoc, Nat.add_comm 1]


theorem cmdLoop_eq (flash : Nat → Nat) (p : Pins) (sgn : Bool) (recs : List InitRecord) :
    ∀ (fuel i : Nat) (s : Regs), recs.length < fuel → recs.length < 65536 →
      (∀ r ∈ recs, r.WellFormed) → Holds flash i (recordBytes recs) →
      cmdLoop flash p sgn fuel recs.length i s = some (recordsTrace p sgn i recs s) := by
  induction recs with
  | nil =>
    intro fuel i s h1 _ _ _
    cases fuel with
    | zero => simp at h1
    | succ f => simp [cmdLoop, recordsTrace]
  | cons r rs ih =>
    intro fuel i s h1 h2 hwf h3
    cases fuel with
    | zero => simp at h1
    | succ f =>
      obtain ⟨ha, hd, -, -⟩ := hwf r (by simp)
      have hcnt : ((r :: rs).length + 65535) % 65536 = rs.length := by
        simp only [List.length_cons] at h2 ⊢
        omega
      have hb : Holds flash i (r.args.length :: r.delayMs :: r.opcode ::
          (r.args ++ recordBytes rs)) := by
        simpa [recordBytes, InitRecord.bytes] using h3
      have e0 := hb.head
      have e1 := hb.tail.head
      have e2 := hb.tail.tail.head
      have hargs : Holds flash (i + 3) r.args := by
        have := hb.tail.tail.tail.left
        simpa [Nat.add_assoc] using this
      have hrest : Holds flash (i + 3 + r.args.length) (recordBytes rs) := by
        have := hb.tail.tail.tail.right
        simpa [Nat.add_assoc] using this
      have hrec := ih f (i + 3 + r.args.length)
        (argsTrace p sgn (i + 3) r.args (ILI9341_TransmitCmmd p (toChar sgn r.opcode) s).2).2
        (by simpa using h1) (by simp at h2; omega)
        (fun q hq => hwf q (List.mem_cons_of_mem _ hq)) hrest
      have hne : (r :: rs).length ≠ 0 := by simp
      simp only [cmdLoop, if_neg hne, hcnt, e0, e1, e2]
      rw [argLoop_eq flash p sgn r.args 256 (i + 3) _ ha ha hargs,
        ILI9341_Delay_eq r.delayMs (by omega)]
      simp only [Option.bind_eq_bind, Option.some_bind]
      rw [hrec]
      simp [recordsTrace]

theorem init_eq (flash : Nat → Nat) (p : Pins) (sgn : Bool) (recs : List InitRecord)
    (s : Regs) (hwf : WellFormed recs) (h : Holds flash 0 (tableBytes recs)) :
    ILI9341_Init flash p sgn s =
      some (Event.read 0 recs.length ::
          (ILI9341_InitPortsWithRES p s).1 ++
            (recordsTrace p sgn 1 recs (ILI9341_InitPortsWithRES p s).2).1,
        (recordsTrace p sgn 1 recs (ILI9341_InitPortsWithRES p s).2).2) := by
  have e0 : pgm_read_byte flash 0 = recs.length := h.head
  have hrest : Holds flash 1 (recordBytes recs) := by
    have := h.tail
    simpa [tableBytes] using this
  have hlen : recs.length % 65536 = recs.length := Nat.mod_eq_of_lt (by have := hwf.1; omega)
  unfold ILI9341_Init
  simp only [e0, hlen]
  rw [cmdLoop_eq flash p sgn recs 65537 1 _ (by have := hwf.1; omega)
    (by have := hwf.1; omega) hwf.2 hrest]
  simp

theorem wellFormed_bytes (recs : List InitRecord) (hwf : WellFormed recs) :
    ∀ b ∈ tableBytes recs, b < 256 := by
  obtain ⟨hlen, hall⟩ := hwf
  have key : ∀ rs : List InitRecord, (∀ r ∈ rs, r.WellFormed) →
      ∀ b ∈ recordBytes rs, b < 256 := by
    intro rs
    induction rs with
    | nil => intro _ b hb; simp [recordBytes] at hb
    | cons r rs ih =>
      intro hr b hb
      obtain ⟨h1, h2, h3, h4⟩ := hr r (by simp)
      simp only [recordBytes, InitRecord.bytes, List.mem_append, List.mem_cons] at hb
      rcases hb with (rfl | rfl | rfl | hb) | hb
      · exact h1
      · exact h2
      · exact h3
      · exact h4 b hb
      · exact ih (fun q hq => hr q (List.mem_cons_of_mem _ hq)) b hb
  intro b hb
  simp only [tableBytes, List.mem_cons] at hb
  rcases hb with rfl | hb
  · exact hlen
  · exact key recs hall b hb

/-- On a well-formed table placed in program memory, `ILI9341_Init` returns, with the
port set-up events followed by the events of the records in table order. -/
theorem init_table (beyond : Nat → Nat) (p : Pins) (sgn : Bool) (recs : List InitRecord)
    (s : Regs) (hwf : WellFormed recs) :
    ILI9341_Init (flashOf (tableBytes recs) beyond) p sgn s =
      some (Event.read 0 recs.length ::
          (ILI9341_InitPortsWithRES p s).1 ++
            (recordsTrace p sgn 1 recs (ILI9341_InitPortsWithRES p s).2).1,
        (recordsTrace p sgn 1 recs (ILI9341_InitPortsWithRES p s).2).2) :=
  init_eq _ p sgn recs s hwf (holds_flashOf _ beyond (wellFormed_bytes recs hwf))

theorem init_records_table : tableBytes INIT_records = INIT_ILI9341 := by decide

theorem init_records_wf : WellFormed INIT_records := by decide


/-! ## Projections of the trace -/

theorem transmits_append (xs ys : List Event) :
    transmits (xs ++ ys) = transmits xs ++ transmits ys := by
  induction xs with
  | nil => rfl
  | cons e es ih => cases e <;> simp [transmits, ih]

theorem readIdx_append (xs ys : List Event) : readIdx (xs ++ ys) = readIdx xs ++ readIdx ys := by
  induction xs with
  | nil => rfl
  | cons e es ih => cases e <;> simp [readIdx, ih]

theorem readVals_append (xs ys : List Event) :
    readVals (xs ++ ys) = readVals xs ++ readVals ys := by
  induction xs with
  | nil => rfl
  | cons e es ih => cases e <;> simp [readVals, ih]

theorem msWaits_append (xs ys : List Event) : msWaits (xs ++ ys) = msWaits xs + msWaits ys := by
  induction xs with
  | nil => simp [msWaits]
  | cons e es ih => cases e <;> simp [msWaits, ih, Nat.add_assoc]

theorem transmits_replicate (n : Nat) : transmits (List.replicate n (Event.delayMs 1)) = [] := by
  induction n with
  | zero => rfl
  | succ k ih => simp [List.replicate_succ, transmits, ih]

theorem readIdx_replicate (n : Nat) : readIdx (List.replicate n (Event.delayMs 1)) = [] := by
  induction n with
  | zero => rfl
  | succ k ih => simp [List.replicate_succ, readIdx, ih]

theorem readVals_replicate (n : Nat) : readVals (List.replicate n (Event.delayMs 1)) = [] := by
  induction n with
  | zero => rfl
  | succ k ih => simp [List.replicate_succ, readVals, ih]

theorem msWaits_replicate (n : Nat) : msWaits (List.replicate n (Event.delayMs 1)) = n := by
  induction n with
  | zero => rfl
  | succ k ih => simp [List.replicate_succ, msWaits, ih, Nat.add_comm]

theorem transmits_args (p : Pins) (sgn : Bool) (as : List Nat) :
    ∀ (i : Nat) (s : Regs), (∀ a ∈ as, a < 256) →
      transmits (argsTrace p sgn i as s).1 = as.map Xfer.argument := by
  induction as with
  | nil => intro i s _; rfl
  | cons a as ih =>
    intro i s h
    have ha : toU8 (toChar sgn (a : Int)) = a := by
      rw [toU8_toChar, toU8_ofNat a (h a (by simp))]
    simp [argsTrace, ILI9341_TransmitData, transmits, ha,
      ih (i + 1) _ (fun b hb => h b (List.mem_cons_of_mem _ hb))]

theorem transmits_records (p : Pins) (sgn : Bool) (recs : List InitRecord) :
    ∀ (i : Nat) (s : Regs), (∀ r ∈ recs, r.WellFormed) →
      transmits (recordsTrace p sgn i recs s).1 = expectedTransmits recs := by
  induction recs with
  | nil => intro i s _; rfl
  | cons r rs ih =>
    intro i s h
    obtain ⟨-, -, ho, ha⟩ := h r (by simp)
    have hc : toU8 (toChar sgn (r.opcode : Int)) = r.opcode := by
      rw [toU8_toChar, toU8_ofNat _ ho]
    simp [recordsTrace, ILI9341_TransmitCmmd, transmits, transmits_append, hc,
      transmits_args p sgn r.args _ _ ha, transmits_replicate, expectedTransmits,
      ih _ _ (fun q hq => h q (List.mem_cons_of_mem _ hq))]

theorem readIdx_args (p : Pins) (sgn : Bool) (as : List Nat) :
    ∀ (i : Nat) (s : Regs), readIdx (argsTrace p sgn i as s).1 = List.range' i as.length := by
  induction as with
  | nil => intro i s; rfl
  | cons a as ih =>
    intro i s
    simp [argsTrace, ILI9341_TransmitData, readIdx, ih, List.range'_succ]

theorem readVals_args (p : Pins) (sgn : Bool) (as : List Nat) :
    ∀ (i : Nat) (s : Regs), readVals (argsTrace p sgn i as s).1 = as := by
  induction as with
  | nil => intro i s; rfl
  | cons a as ih =>
    intro i s
    simp [argsTrace, ILI9341_TransmitData, readVals, ih]

theorem msWaits_args (p : Pins) (sgn : Bool) (as : List Nat) :
    ∀ (i : Nat) (s : Regs), msWaits (argsTrace p sgn i as s).1 = 0 := by
  induction as with
  | nil => intro i s; rfl
  | cons a as ih =>
    intro i s
    simp [argsTrace, ILI9341_TransmitData, msWaits, ih]

theorem recordsTrace_cons (p : Pins) (sgn : Bool) (i : Nat) (r : InitRecord)
    (rs : List InitRecord) (s : Regs) :
    (recordsTrace p sgn i (r :: rs) s).1 =
      Event.read i r.args.length :: Event.read (i + 1) r.delayMs ::
        Event.read (i + 2) r.opcode ::
        ((ILI9341_TransmitCmmd p (toChar sgn r.opcode) s).1 ++
          (argsTrace p sgn (i + 3) r.args (ILI9341_TransmitCmmd p (toChar sgn r.opcode) s).2).1 ++
          List.replicate r.delayMs (Event.delayMs 1) ++
          (recordsTrace p sgn (i + 3 + r.args.length) rs
            (argsTrace p sgn (i + 3) r.args
              (ILI9341_TransmitCmmd p (toChar sgn r.opcode) s).2).2).1) := rfl

theorem range_header (i n m : Nat) :
    List.range' i (n + 1 + 1 + 1 + m) =
      i :: (i + 1) :: (i + 2) :: (List.range' (i + 3) n ++ List.range' (i + 3 + n) m) := by
  rw [show n + 1 + 1 + 1 + m = (n + m) + 1 + 1 + 1 by omega]
  simp only [List.range'_succ, List.cons.injEq, true_and]
  rw [show i + 1 + 1 + 1 = i + 3 by omega, Nat.add_comm n m, ← List.range'_append]
  simp

theorem readIdx_records (p : Pins) (sgn : Bool) (recs : List InitRecord) :
    ∀ (i : Nat) (s : Regs),
      readIdx (recordsTrace p sgn i recs s).1 = List.range' i (recordBytes recs).length := by
  induction recs with
  | nil => intro i s; rfl
  | cons r rs ih =>
    intro i s
    have hcm : readIdx (ILI9341_TransmitCmmd p (toChar sgn r.opcode) s).1 = [] := rfl
    have hrd : ∀ (j v : Nat) (es : List Event),
        readIdx (Event.read j v :: es) = j :: readIdx es := fun _ _ _ => rfl
    rw [recordsTrace_cons]
    simp only [hrd, readIdx_append, readIdx_args, readIdx_replicate, ih, hcm,
      recordBytes, InitRecord.bytes, List.length_append, List.length_cons, List.append_nil,
      List.nil_append]
    rw [range_header]

theorem readVals_records (p : Pins) (sgn : Bool) (recs : List InitRecord) :
    ∀ (i : Nat) (s : Regs), readVals (recordsTrace p sgn i recs s).1 = recordBytes recs := by
  induction recs with
  | nil => intro i s; rfl
  | cons r rs ih =>
    intro i s
    simp [recordsTrace, ILI9341_TransmitCmmd, readVals, readVals_append, readVals_args,
      readVals_replicate, ih, recordBytes, InitRecord.bytes]

theorem msWaits_records (p : Pins) (sgn : Bool) (recs : List InitRecord) :
    ∀ (i : Nat) (s : Regs), msWaits (recordsTrace p sgn i recs s).1 = totalDelay recs := by
  induction recs with
  | nil => intro i s; rfl
  | cons r rs ih =>
    intro i s
    simp [recordsTrace, ILI9341_TransmitCmmd, msWaits, msWaits_append, msWaits_args,
      msWaits_replicate, ih, totalDelay]


theorem transmits_initPorts (p : Pins) (s : Regs) :
    transmits (ILI9341_InitPortsWithRES p s).1 = [] := rfl

theorem readIdx_initPorts (p : Pins) (s : Regs) :
    readIdx (ILI9341_InitPortsWithRES p s).1 = [] := rfl

theorem readVals_initPorts (p : Pins) (s : Regs) :
    readVals (ILI9341_InitPortsWithRES p s).1 = [] := rfl

theorem msWaits_initPorts (p : Pins) (s : Regs) :
    msWaits (ILI9341_InitPortsWithRES p s).1 = 0 := rfl

theorem init_transmits (beyond : Nat → Nat) (p : Pins) (sgn : Bool) (recs : List InitRecord)
    (s : Regs) (hwf : WellFormed recs) :
    ∃ tr s', ILI9341_Init (flashOf (tableBytes recs) beyond) p sgn s = some (tr, s') ∧
      transmits tr = expectedTransmits recs := by
  refine ⟨_, _, init_table beyond p sgn recs s hwf, ?_⟩
  simp [transmits, transmits_append, transmits_initPorts, transmits_records p sgn recs _ _ hwf.2]

theorem init_reads (beyond : Nat → Nat) (p : Pins) (sgn : Bool) (recs : List InitRecord)
    (s : Regs) (hwf : WellFormed recs) :
    ∃ tr s', ILI9341_Init (flashOf (tableBytes recs) beyond) p sgn s = some (tr, s') ∧
      readIdx tr = List.range (tableBytes recs).length ∧ readVals tr = tableBytes recs := by
  refine ⟨_, _, init_table beyond p sgn recs s hwf, ?_, ?_⟩
  · simp [readIdx, readIdx_append, readIdx_initPorts, readIdx_records, tableBytes,
      List.range_eq_range', List.range'_succ]
  · simp [readVals, readVals_append, readVals_initPorts, readVals_records, tableBytes]

theorem init_waits (beyond : Nat → Nat) (p : Pins) (sgn : Bool) (recs : List InitRecord)
    (s : Regs) (hwf : WellFormed recs) :
    ∃ tr s', ILI9341_Init (flashOf (tableBytes recs) beyond) p sgn s = some (tr, s') ∧
      msWaits tr = totalDelay recs := by
  refine ⟨_, _, init_table beyond p sgn recs s hwf, ?_⟩
  simp [msWaits, msWaits_append, msWaits_initPorts, msWaits_records]

/-! ## Register effects -/

theorem testBit_idle (p : Pins) (v i : Nat) :
    (idle p v).testBit i =
      (decide (i < 8) && (v.testBit i || decide (i = p.cs) || decide (i = p.rs) ||
        decide (i = p.wr))) := by
  unfold idle
  rw [testBit_mod256]
  simp only [Nat.testBit_lor, testBit_bit]
  by_cases h : i < 8
  · have : i < 16 := by omega
    simp [h, this]
  · simp [h]

theorem transmitCmmd_port (p : Pins) (v : Nat) :
    setBit (setBit (setBit (clrBit (clrBit (clrBit v p.cs) p.rs) p.wr) p.wr) p.rs) p.cs =
      idle p v := by
  apply Nat.eq_of_testBit_eq
  intro i
  simp only [testBit_setBit, testBit_clrBit, testBit_idle]
  generalize decide (i < 8) = a, v.testBit i = b, decide (i = p.cs) = c,
    decide (i = p.rs) = d, decide (i = p.wr) = e
  cases a <;> cases b <;> cases c <;> cases d <;> cases e <;> rfl

theorem transmitData_port (p : Pins) (v : Nat) :
    setBit (setBit (clrBit (setBit (clrBit v p.cs) p.rs) p.wr) p.wr) p.cs = idle p v := by
  apply Nat.eq_of_testBit_eq
  intro i
  simp only [testBit_setBit, testBit_clrBit, testBit_idle]
  generalize decide (i < 8) = a, v.testBit i = b, decide (i = p.cs) = c,
    decide (i = p.rs) = d, decide (i = p.wr) = e
  cases a <;> cases b <;> cases c <;> cases d <;> cases e <;> rfl

theorem idle_idle (p : Pins) (v : Nat) : idle p (idle p v) = idle p v := by
  apply Nat.eq_of_testBit_eq
  intro i
  simp only [testBit_idle]
  generalize decide (i < 8) = a, v.testBit i = b, decide (i = p.cs) = c,
    decide (i = p.rs) = d, decide (i = p.wr) = e
  cases a <;> cases b <;> cases c <;> cases d <;> cases e <;> rfl

theorem transmitCmmd_regs (p : Pins) (c : Int) (s : Regs) :
    (ILI9341_TransmitCmmd p c s).2 = settle p (some (toU8 c)) s := by
  simp [ILI9341_TransmitCmmd, settle, transmitCmmd_port]

theorem transmitData_regs (p : Pins) (c : Int) (s : Regs) :
    (ILI9341_TransmitData p c s).2 = settle p (some (toU8 c)) s := by
  simp [ILI9341_TransmitData, settle, transmitData_port]

theorem settle_settle (p : Pins) (o : Option Nat) (d : Nat) (s : Regs) :
    settle p o (settle p (some d) s) = settle p (some (o.getD d)) s := by
  cases o with
  | none => rfl
  | some e => simp [settle, idle_idle]

theorem argsTrace_regs (p : Pins) (sgn : Bool) (as : List Nat) :
    ∀ (i : Nat) (s : Regs), (∀ a ∈ as, a < 256) →
      (argsTrace p sgn i as s).2 = settle p as.getLast? s := by
  induction as with
  | nil => intro i s _; rfl
  | cons a as ih =>
    intro i s h
    have ha : toU8 (toChar sgn (a : Int)) = a := by
      rw [toU8_toChar, toU8_ofNat a (h a (by simp))]
    have e : (argsTrace p sgn i (a :: as) s).2 =
        (argsTrace p sgn (i + 1) as (ILI9341_TransmitData p (toChar sgn a) s).2).2 := rfl
    rw [e, ih _ _ (fun b hb => h b (List.mem_cons_of_mem _ hb)), transmitData_regs, ha,
      settle_settle]
    cases as with
    | nil => rfl
    | cons b bs =>
      rw [List.getLast?_cons_cons, List.getLast?_eq_getLast _ (List.cons_ne_nil b bs)]
      rfl

theorem recordsTrace_regs (p : Pins) (sgn : Bool) (recs : List InitRecord) :
    ∀ (i : Nat) (s : Regs), (∀ r ∈ recs, r.WellFormed) →
      (recordsTrace p sgn i recs s).2 = settle p (lastByte recs) s := by
  induction recs with
  | nil => intro i s _; rfl
  | cons r rs ih =>
    intro i s h
    obtain ⟨-, -, ho, ha⟩ := h r (by simp)
    have hc : toU8 (toChar sgn (r.opcode : Int)) = r.opcode := by
      rw [toU8_toChar, toU8_ofNat _ ho]
    have e : (recordsTrace p sgn i (r :: rs) s).2 =
        (recordsTrace p sgn (i + 3 + r.args.length) rs
          (argsTrace p sgn (i + 3) r.args
            (ILI9341_TransmitCmmd p (toChar sgn r.opcode) s).2).2).2 := rfl
    rw [e, ih _ _ (fun q hq => h q (List.mem_cons_of_mem _ hq)), argsTrace_regs p sgn _ _ _ ha,
      transmitCmmd_regs, hc, settle_settle, settle_settle]
    rfl

theorem initPorts_regs (p : Pins) (s : Regs) :
    (ILI9341_InitPortsWithRES p s).2 =
      ⟨dirMask p s.ddrControl, raised p s.portControl, 255, s.portData⟩ := rfl

theorem testBit_dirMask (p : Pins) (v i : Nat) :
    (dirMask p v).testBit i =
      (decide (i < 8) && (v.testBit i || decide (i = p.rst) || decide (i = p.wr) ||
        decide (i = p.rs) || decide (i = p.rd))) := by
  simp only [dirMask, testBit_mod256, Nat.testBit_lor, testBit_bit]
  by_cases h : i < 8
  · have h16 : i < 16 := by omega
    simp only [h, h16, decide_True, Bool.true_and]
    generalize v.testBit i = b, decide (i = p.rst) = c, decide (i = p.wr) = d,
      decide (i = p.rs) = e, decide (i = p.rd) = f
    cases b <;> cases c <;> cases d <;> cases e <;> cases f <;> rfl
  · simp [h]

theorem testBit_raised (p : Pins) (v i : Nat) :
    (raised p v).testBit i =
      (decide (i < 8) && (v.testBit i || decide (i = p.rst) || decide (i = p.wr) ||
        decide (i = p.rs) || decide (i = p.rd))) := by
  simp only [raised, testBit_mod256, Nat.testBit_lor, testBit_bit, testBit_setBit]
  by_cases h : i < 8
  · have h16 : i < 16 := by omega
    simp only [h, h16, decide_True, Bool.true_and]
    generalize v.testBit i = b, decide (i = p.rst) = c, decide (i = p.wr) = d,
      decide (i = p.rs) = e, decide (i = p.rd) = f
    cases b <;> cases c <;> cases d <;> cases e <;> cases f <;> rfl
  · simp [h]

theorem dirMask_dirMask (p : Pins) (v : Nat) : dirMask p (dirMask p v) = dirMask p v := by
  apply Nat.eq_of_testBit_eq
  intro i
  simp only [testBit_dirMask]
  generalize decide (i < 8) = a, v.testBit i = b, decide (i = p.rst) = c,
    decide (i = p.wr) = d, decide (i = p.rs) = e, decide (i = p.rd) = f
  cases a <;> cases b <;> cases c <;> cases d <;> cases e <;> cases f <;> rfl

theorem raised_raised (p : Pins) (v : Nat) : raised p (raised p v) = raised p v := by
  apply Nat.eq_of_testBit_eq
  intro i
  simp only [testBit_raised]
  generalize decide (i < 8) = a, v.testBit i = b, decide (i = p.rst) = c,
    decide (i = p.wr) = d, decide (i = p.rs) = e, decide (i = p.rd) = f
  cases a <;> cases b <;> cases c <;> cases d <;> cases e <;> cases f <;> rfl

theorem idle_raised_fixed (p : Pins) (v : Nat) :
    idle p (raised p (idle p (raised p v))) = idle p (raised p v) := by
  apply Nat.eq_of_testBit_eq
  intro i
  simp only [testBit_raised, testBit_idle]
  generalize decide (i < 8) = a, v.testBit i = b, decide (i = p.rst) = c,
    decide (i = p.wr) = d, decide (i = p.rs) = e, decide (i = p.rd) = f,
    decide (i = p.cs) = g
  cases a <;> cases b <;> cases c <;> cases d <;> cases e <;> cases f <;> cases g <;> rfl

/-- Running the port set-up and the records again from the state they left changes no
register. -/
theorem settle_ports_fixed (p : Pins) (o : Option Nat) (s : Regs) :
    settle p o (ILI9341_InitPortsWithRES p
        (settle p o (ILI9341_InitPortsWithRES p s).2)).2 =
      settle p o (ILI9341_InitPortsWithRES p s).2 := by
  cases o with
  | none => simp [initPorts_regs, settle, dirMask_dirMask, raised_raised]
  | some d => simp [initPorts_regs, settle, dirMask_dirMask, idle_raised_fixed]

theorem init_regs (beyond : Nat → Nat) (p : Pins) (sgn : Bool) (recs : List InitRecord)
    (s : Regs) (hwf : WellFormed recs) :
    ∃ tr, ILI9341_Init (flashOf (tableBytes recs) beyond) p sgn s =
      some (tr, settle p (lastByte recs) (ILI9341_InitPortsWithRES p s).2) := by
  rw [init_table beyond p sgn recs s hwf, recordsTrace_regs p sgn recs _ _ hwf.2]
  exact ⟨_, rfl⟩

/-- With the chip-select pin distinct from the four pins named in the direction set-up,
`ILI9341_InitPortsWithRES` leaves the direction bit of chip-select as it found it. -/
theorem initPorts_cs_direction (p : Pins) (s : Regs) (h8 : p.cs < 8)
    (h1 : p.cs ≠ p.rst) (h2 : p.cs ≠ p.wr) (h3 : p.cs ≠ p.rs) (h4 : p.cs ≠ p.rd) :
    high (ILI9341_InitPortsWithRES p s).2.ddrControl p.cs = high s.ddrControl p.cs := by
  rw [initPorts_regs]
  simp [high, testBit_dirMask, h8, h1, h2, h3, h4]

theorem toChar_one (sgn : Bool) : toChar sgn 1 = 1 := by
  cases sgn <;> rfl

theorem holds_malformed (beyond : Nat → Nat) :
    Holds (flashOf malformedTable beyond) 0
      (tableBytes [⟨150, 0x11, [beyond 4 % 256]⟩]) := by
  intro j b hj
  have hj4 : j < 5 := by
    by_contra h
    rw [List.getElem?_eq_none (by simp [tableBytes, recordBytes, InitRecord.bytes]; omega)] at hj
    cases hj
  have hcases : j = 0 ∨ j = 1 ∨ j = 2 ∨ j = 3 ∨ j = 4 := by omega
  rcases hcases with rfl | rfl | rfl | rfl | rfl <;>
    simp [tableBytes, recordBytes, InitRecord.bytes] at hj <;>
    subst hj <;>
    simp [pgm_read_byte, flashOf, malformedTable]

/-! ## The serial transport: the loops -/

namespace SpiHal

theorem SPI_STC_vect_done (r : HwResp) (st : Spi) : (SPI_STC_vect r st).spi_txrx_done = 1 := by
  unfold SPI_STC_vect
  split <;> rfl

theorem SPI_STC_vect_rx_data (r : HwResp) (st : Spi) :
    (SPI_STC_vect r st).spi_rx_data = received r := by
  unfold SPI_STC_vect received
  split <;> rfl

theorem SPI_STC_vect_frame (r : HwResp) (st : Spi) :
    (SPI_STC_vect r st).portB = st.portB ∧ (SPI_STC_vect r st).rx = st.rx ∧
      (SPI_STC_vect r st).sent = st.sent := by
  unfold SPI_STC_vect
  split <;> exact ⟨rfl, rfl, rfl⟩

theorem waitDone_eq (r : HwResp) (k : Nat) (st : Spi) (h : st.spi_txrx_done = 0) :
    waitDone r k st =
      some (List.replicate k (SpiEvent.poll 0) ++ [.isr r.spsr r.spdr, .poll 1],
        SPI_STC_vect r st) := by
  induction k with
  | zero => simp [waitDone, SPI_STC_vect_done]
  | succ n ih => simp [waitDone, h, ih, List.replicate_succ]

theorem spi_send_eq (hw : Nat → Option HwResp) (tx : Nat → Nat) (i : Nat) (st : Spi)
    (r : HwResp) (h : hw st.sent = some r) :
    ∃ st', spi_send hw tx i st = some (cycle r (tx i % 256) i, st') ∧
      st'.portB = st.portB ∧ st'.sent = st.sent + 1 ∧
      ∀ j, st'.rx j = if j = i then received r else st.rx j := by
  unfold spi_send
  simp only [h]
  rw [waitDone_eq r r.latency _ rfl]
  refine ⟨{ SPI_STC_vect r { st with spi_txrx_done := 0, sent := st.sent + 1 } with
    rx := fun j => if j = i then
        (SPI_STC_vect r { st with spi_txrx_done := 0, sent := st.sent + 1 }).spi_rx_data
      else (SPI_STC_vect r { st with spi_txrx_done := 0, sent := st.sent + 1 }).rx j },
    ?_, ?_, ?_, ?_⟩
  · simp only [Option.map_some', SPI_STC_vect_rx_data, cycle, List.cons_append,
      List.append_assoc, List.nil_append]
  · exact (SPI_STC_vect_frame r _).1
  · exact (SPI_STC_vect_frame r _).2.2
  · intro j
    simp only [SPI_STC_vect_rx_data, (SPI_STC_vect_frame r _).2.1]

theorem transferLoop_eq (hw : Nat → Option HwResp) (tx : Nat → Nat) (len : Nat)
    (resp : Nat → HwResp) (hlen : len < 65536) (n : Nat) :
    ∀ (fuel i : Nat) (st : Spi), i + n = len → n < fuel →
      (∀ k, k < n → hw (st.sent + k) = some (resp (i + k))) →
      ∃ st', transferLoop hw tx len fuel i st = some (cycles resp tx n i, st') ∧
        st'.portB = st.portB ∧
        ∀ j, st'.rx j = if i ≤ j ∧ j < len then received (resp j) else st.rx j := by
  induction n with
  | zero =>
    intro fuel i st hi hf _
    cases fuel with
    | zero => omega
    | succ f =>
      refine ⟨st, ?_, rfl, ?_⟩
      · have : ¬ i < len := by omega
        simp [transferLoop, this, cycles]
      · intro j
        have : ¬ (i ≤ j ∧ j < len) := by omega
        simp [this]
  | succ m ih =>
    intro fuel i st hi hf hhw
    cases fuel with
    | zero => omega
    | succ f =>
      have hil : i < len := by omega
      obtain ⟨st1, e1, p1, c1, r1⟩ := spi_send_eq hw tx i st (resp i) (by simpa using hhw 0 (by omega))
      obtain ⟨st2, e2, p2, r2⟩ := ih f (i + 1) st1 (by omega) (by omega) (by
        intro k hk
        have := hhw (k + 1) (by omega)
        rw [c1, show st.sent + 1 + k = st.sent + (k + 1) by omega,
          show i + 1 + k = i + (k + 1) by omega]
        exact this)
      refine ⟨st2, ?_, by rw [p2, p1], ?_⟩
      · have hw1 : (i + 1) % 65536 = i + 1 := Nat.mod_eq_of_lt (by omega)
        simp [transferLoop, hil, e1, hw1, e2, cycles]
      · intro j
        rw [r2, r1]
        by_cases hj : j = i
        · subst hj
          have h1 : ¬ (j + 1 ≤ j ∧ j < len) := by omega
          have h2 : j ≤ j ∧ j < len := ⟨le_refl _, hil⟩
          simp [h1, h2]
        · by_cases hr : i + 1 ≤ j ∧ j < len
          · have : i ≤ j ∧ j < len := ⟨by omega, hr.2⟩
            simp [hr, this]
          · have : ¬ (i ≤ j ∧ j < len) := by omega
            simp [hr, this, hj]

theorem cycles_no_port_write (resp : Nat → HwResp) (tx : Nat → Nat) (n : Nat) :
    ∀ i, ∀ e ∈ cycles resp tx n i, isPortWrite e = false := by
  induction n with
  | zero => intro i e he; simp [cycles] at he
  | succ m ih =>
    intro i e he
    simp only [cycles, cycle, List.mem_append, List.mem_cons, List.mem_replicate,
      List.mem_singleton, List.not_mem_nil, or_false] at he
    rcases he with (rfl | rfl | ⟨-, rfl⟩ | rfl | rfl | rfl) | he
    · rfl
    · rfl
    · rfl
    · rfl
    · rfl
    · rfl
    · exact ih (i + 1) e he

theorem spi_transfer_eq (pb2 : Nat) (hw : Nat → Option HwResp) (tx : Nat → Nat) (len : Nat)
    (st : Spi) (resp : Nat → HwResp) (hlen : len < 65536)
    (hhw : ∀ k, k < len → hw (st.sent + k) = some (resp k)) :
    ∃ st', spi_transfer pb2 hw tx len st =
        some (SpiEvent.writePortB (clrBit st.portB pb2) :: SpiEvent.delayUs 100 ::
          (cycles resp tx len 0 ++
            [SpiEvent.writePortB (setBit (clrBit st.portB pb2) pb2), SpiEvent.delayUs 100]),
          st') ∧
      st'.portB = setBit (clrBit st.portB pb2) pb2 ∧
      ∀ j, st'.rx j = if j < len then received (resp j) else st.rx j := by
  obtain ⟨st2, e2, p2, r2⟩ := transferLoop_eq hw tx len resp hlen len 65537 0
    { st with portB := clrBit st.portB pb2 } (by omega) (by omega)
    (by intro k hk; simpa using hhw k hk)
  refine ⟨{ st2 with portB := setBit st2.portB pb2 }, ?_, ?_, ?_⟩
  · unfold spi_transfer
    simp only [Nat.mod_eq_of_lt hlen, e2, Option.map_some', p2, List.cons_append]
  · simp only [p2]
  · intro j
    simp only [r2, Nat.zero_le, true_and]

end SpiHal

/-! ## Calls and waits of a run, independent of the registers -/

theorem calls_append (xs ys : List Event) : calls (xs ++ ys) = calls xs ++ calls ys := by
  induction xs with
  | nil => rfl
  | cons e es ih => cases e <;> simp [calls, ih]

theorem calls_replicate (n : Nat) :
    calls (List.replicate n (Event.delayMs 1)) = List.replicate n (Event.delayMs 1) := by
  induction n with
  | zero => rfl
  | succ k ih => simp [List.replicate_succ, calls, ih]

theorem calls_args (p : Pins) (sgn : Bool) (as : List Nat) :
    ∀ (i : Nat) (s : Regs),
      calls (argsTrace p sgn i as s).1 = as.map (fun a => Event.data (toChar sgn a)) := by
  induction as with
  | nil => intro i s; rfl
  | cons a as ih =>
    intro i s
    have e : (argsTrace p sgn i (a :: as) s).1 =
        Event.read i a :: ((ILI9341_TransmitData p (toChar sgn a) s).1 ++
          (argsTrace p sgn (i + 1) as (ILI9341_TransmitData p (toChar sgn a) s).2).1) := rfl
    have hd : calls (ILI9341_TransmitData p (toChar sgn a) s).1 =
        [Event.data (toChar sgn a)] := rfl
    have hr : ∀ (j v : Nat) (es : List Event), calls (Event.read j v :: es) = calls es :=
      fun _ _ _ => rfl
    rw [e, hr, calls_append, hd, ih]
    rfl

theorem calls_records (p : Pins) (sgn : Bool) (recs : List InitRecord) :
    ∀ (i : Nat) (s : Regs), calls (recordsTrace p sgn i recs s).1 = recordCalls sgn recs := by
  induction recs with
  | nil => intro i s; rfl
  | cons r rs ih =>
    intro i s
    have hc : calls (ILI9341_TransmitCmmd p (toChar sgn r.opcode) s).1 =
        [Event.cmmd (toChar sgn r.opcode)] := rfl
    have hr : ∀ (j v : Nat) (es : List Event), calls (Event.read j v :: es) = calls es :=
      fun _ _ _ => rfl
    rw [recordsTrace_cons, hr, hr, hr, calls_append, calls_append, calls_append, hc,
      calls_args, calls_replicate, ih]
    simp [recordCalls]

theorem calls_init (p : Pins) (sgn : Bool) (recs : List InitRecord) (n : Nat) (s : Regs) :
    calls (Event.read 0 n :: (ILI9341_InitPortsWithRES p s).1 ++
      (recordsTrace p sgn 1 recs (ILI9341_InitPortsWithRES p s).2).1) =
      recordCalls sgn recs := by
  have hr : ∀ (j v : Nat) (es : List Event), calls (Event.read j v :: es) = calls es :=
    fun _ _ _ => rfl
  have hp : calls (ILI9341_InitPortsWithRES p s).1 = [] := rfl
  rw [List.cons_append, hr, calls_append, hp, calls_records]
  rfl

theorem afterCmmd_calls (op : Nat) (tr : List Event) :
    afterCmmd op (calls tr) = (afterCmmd op tr).map calls := by
  induction tr with
  | nil => rfl
  | cons e es ih =>
    cases e with
    | cmmd c =>
      by_cases h : toU8 c = op <;> simp [calls, afterCmmd, h, ih]
    | read _ _ => simpa [calls, afterCmmd] using ih
    | data _ => simpa [calls, afterCmmd] using ih
    | write _ _ => simpa [calls, afterCmmd] using ih
    | delayUs _ => simpa [calls, afterCmmd] using ih
    | delayMs _ => simpa [calls, afterCmmd] using ih

theorem beforeFirstCmmd_cmmd (c : Int) (es : List Event) :
    beforeFirstCmmd (Event.cmmd c :: es) = [] := rfl

theorem beforeFirstCmmd_other (e : Event) (es : List Event) (h : isCmmd e = false) :
    beforeFirstCmmd (e :: es) = e :: beforeFirstCmmd es := by
  unfold beforeFirstCmmd
  rw [List.takeWhile_cons]
  simp [h]

theorem beforeFirstCmmd_calls (tr : List Event) :
    beforeFirstCmmd (calls tr) = calls (beforeFirstCmmd tr) := by
  induction tr with
  | nil => rfl
  | cons e es ih =>
    cases e with
    | cmmd c => rfl
    | read j v => rw [beforeFirstCmmd_other (Event.read j v) es rfl]; exact ih
    | write r v => rw [beforeFirstCmmd_other (Event.write r v) es rfl]; exact ih
    | delayUs n => rw [beforeFirstCmmd_other (Event.delayUs n) es rfl]; exact ih
    | data c =>
      rw [beforeFirstCmmd_other (Event.data c) es rfl]
      show beforeFirstCmmd (Event.data c :: calls es) = Event.data c :: calls (beforeFirstCmmd es)
      rw [beforeFirstCmmd_other (Event.data c) (calls es) rfl, ih]
    | delayMs n =>
      rw [beforeFirstCmmd_other (Event.delayMs n) es rfl]
      show beforeFirstCmmd (Event.delayMs n :: calls es) =
        Event.delayMs n :: calls (beforeFirstCmmd es)
      rw [beforeFirstCmmd_other (Event.delayMs n) (calls es) rfl, ih]

theorem msWaits_calls (tr : List Event) : msWaits (calls tr) = msWaits tr := by
  induction tr with
  | nil => rfl
  | cons e es ih => cases e <;> simp [calls, msWaits, ih]

theorem firstCmmd_calls (tr : List Event) : firstCmmd (calls tr) = firstCmmd tr := by
  induction tr with
  | nil => rfl
  | cons e es ih => cases e <;> simp [calls, firstCmmd, ih]

theorem transmits_calls (tr : List Event) : transmits (calls tr) = transmits tr := by
  induction tr with
  | nil => rfl
  | cons e es ih => cases e <;> simp [calls, transmits, ih]

/-- On a well-formed table the transmit calls and waits of `ILI9341_Init` are those the
records ask for, whatever the pins and the registers. -/
theorem init_calls (beyond : Nat → Nat) (p : Pins) (sgn : Bool) (recs : List InitRecord)
    (s : Regs) (hwf : WellFormed recs) :
    ∃ tr s', ILI9341_Init (flashOf (tableBytes recs) beyond) p sgn s = some (tr, s') ∧
      calls tr = recordCalls sgn recs :=
  ⟨_, _, init_table beyond p sgn recs s hwf, calls_init p sgn recs _ s⟩

/-! ## Bits a store leaves alone -/

theorem high_of_ge8 (v j : Nat) (hv : v < 256) (hj : ¬ j < 8) : high v j = false := by
  unfold high
  apply Nat.testBit_eq_false_of_lt
  have h : 2 ^ 8 ≤ 2 ^ j := Nat.pow_le_pow_right (by norm_num) (by omega)
  have h256 : (2 : Nat) ^ 8 = 256 := by norm_num
  omega

theorem setBit_lt (v q : Nat) : setBit v q < 256 := Nat.mod_lt _ (by norm_num)

theorem clrBit_lt (v q : Nat) : clrBit v q < 256 := Nat.mod_lt _ (by norm_num)

theorem high_setBit_other (v q j : Nat) (hv : v < 256) (h : j ≠ q) :
    high (setBit v q) j = high v j := by
  by_cases h8 : j < 8
  · simp [high, testBit_setBit, h8, h]
  · rw [high_of_ge8 _ _ (setBit_lt v q) h8, high_of_ge8 _ _ hv h8]

theorem high_clrBit_other (v q j : Nat) (hv : v < 256) (h : j ≠ q) :
    high (clrBit v q) j = high v j := by
  by_cases h8 : j < 8
  · simp [high, testBit_clrBit, h8, h]
  · rw [high_of_ge8 _ _ (clrBit_lt v q) h8, high_of_ge8 _ _ hv h8]

theorem states_transmitCmmd (p : Pins) (c : Int) (s : Regs) :
    states s (ILI9341_TransmitCmmd p c s).1 =
      [s,
        { s with portControl := clrBit s.portControl p.cs },
        { s with portControl := clrBit (clrBit s.portControl p.cs) p.rs },
        { s with portControl := clrBit (clrBit s.portControl p.cs) p.rs, portData := toU8 c },
        { s with portControl := clrBit (clrBit (clrBit s.portControl p.cs) p.rs) p.wr,
                 portData := toU8 c },
        { s with portControl :=
                   setBit (clrBit (clrBit (clrBit s.portControl p.cs) p.rs) p.wr) p.wr,
                 portData := toU8 c },
        { s with portControl := setBit
                   (setBit (clrBit (clrBit (clrBit s.portControl p.cs) p.rs) p.wr) p.wr) p.rs,
                 portData := toU8 c },
        (ILI9341_TransmitCmmd p c s).2] := rfl

theorem states_transmitData (p : Pins) (c : Int) (s : Regs) :
    states s (ILI9341_TransmitData p c s).1 =
      [s,
        { s with portControl := clrBit s.portControl p.cs },
        { s with portControl := setBit (clrBit s.portControl p.cs) p.rs },
        { s with portControl := setBit (clrBit s.portControl p.cs) p.rs, portData := toU8 c },
        { s with portControl := clrBit (setBit (clrBit s.portControl p.cs) p.rs) p.wr,
                 portData := toU8 c },
        { s with portControl :=
                   setBit (clrBit (setBit (clrBit s.portControl p.cs) p.rs) p.wr) p.wr,
                 portData := toU8 c },
        (ILI9341_TransmitData p c s).2] := rfl

/-! ## The walk over arbitrary program memory -/

theorem Holds.cons {flash : Nat → Nat} {i b : Nat} {bs : List Nat}
    (h0 : pgm_read_byte flash i = b) (h : Holds flash (i + 1) bs) :
    Holds flash i (b :: bs) := by
  intro j c hj
  cases j with
  | zero =>
    simp only [List.getElem?_cons_zero, Option.some.injEq] at hj
    rw [← hj]
    exact h0
  | succ k =>
    have := h k c (by simpa using hj)
    rw [← this]
    congr 1
    omega

theorem Holds.append {flash : Nat → Nat} {i : Nat} {as bs : List Nat}
    (h1 : Holds flash i as) (h2 : Holds flash (i + as.length) bs) :
    Holds flash i (as ++ bs) := by
  intro j c hj
  by_cases hlt : j < as.length
  · rw [List.getElem?_append_left hlt] at hj
    exact h1 j c hj
  · rw [List.getElem?_append_right (by omega)] at hj
    have := h2 (j - as.length) c hj
    rw [← this]
    congr 1
    omega

theorem holds_range (flash : Nat → Nat) (i a : Nat) :
    Holds flash i ((List.range a).map fun k => pgm_read_byte flash (i + k)) := by
  intro j c hj
  rw [List.getElem?_map] at hj
  by_cases hlt : j < a
  · rw [List.getElem?_range hlt] at hj
    simp only [Option.map_some', Option.some.injEq] at hj
    exact hj
  · rw [List.getElem?_eq_none (by simp; omega)] at hj
    cases hj

theorem pgm_read_byte_lt (flash : Nat → Nat) (i : Nat) : pgm_read_byte flash i < 256 :=
  Nat.mod_lt _ (by norm_num)

theorem parseRecs_length (flash : Nat → Nat) (n : Nat) :
    ∀ i, (parseRecs flash n i).length = n := by
  induction n with
  | zero => intro i; rfl
  | succ k ih => intro i; simp [parseRecs, ih]

theorem parseRecs_wf (flash : Nat → Nat) (n : Nat) :
    ∀ i, ∀ r ∈ parseRecs flash n i, r.WellFormed := by
  induction n with
  | zero => intro i r hr; simp [parseRecs] at hr
  | succ k ih =>
    intro i r hr
    simp only [parseRecs, List.mem_cons] at hr
    rcases hr with rfl | hr
    · refine ⟨by simpa using pgm_read_byte_lt flash i, pgm_read_byte_lt _ _,
        pgm_read_byte_lt _ _, ?_⟩
      intro a ha
      simp only [List.mem_map, List.mem_range] at ha
      obtain ⟨k, -, rfl⟩ := ha
      exact pgm_read_byte_lt _ _
    · exact ih _ r hr

theorem parseRecs_holds (flash : Nat → Nat) (n : Nat) :
    ∀ i, Holds flash i (recordBytes (parseRecs flash n i)) := by
  induction n with
  | zero => intro i j c hj; simp [parseRecs, recordBytes] at hj
  | succ k ih =>
    intro i
    simp only [parseRecs, recordBytes, InitRecord.bytes, List.length_map, List.length_range,
      List.cons_append]
    refine Holds.cons rfl (Holds.cons rfl (Holds.cons rfl (Holds.append ?_ ?_)))
    · have := holds_range flash (i + 3) (pgm_read_byte flash i)
      simpa [Nat.add_assoc] using this
    · have := ih (i + 3 + pgm_read_byte flash i)
      simpa [Nat.add_assoc] using this

/-- Whatever program memory holds, `ILI9341_Init` returns, having fetched exactly the
offsets 0, 1, ... up to the end of the last record it walked, as the count byte and the
`argCount` bytes it met dictate. -/
theorem init_any (flash : Nat → Nat) (p : Pins) (sgn : Bool) (s : Regs) :
    ∃ tr s', ILI9341_Init flash p sgn s = some (tr, s') ∧
      readIdx tr = List.range
        (1 + (recordBytes (parseRecs flash (pgm_read_byte flash 0) 1)).length) := by
  have hwf : WellFormed (parseRecs flash (pgm_read_byte flash 0) 1) :=
    ⟨by rw [parseRecs_length]; exact pgm_read_byte_lt _ _, parseRecs_wf flash _ 1⟩
  have hh : Holds flash 0 (tableBytes (parseRecs flash (pgm_read_byte flash 0) 1)) := by
    unfold tableBytes
    exact Holds.cons (by rw [parseRecs_length]) (parseRecs_holds flash _ 1)
  refine ⟨_, _, init_eq flash p sgn _ s hwf hh, ?_⟩
  simp [readIdx, readIdx_append, readIdx_initPorts, readIdx_records,
    List.range_eq_range', List.range'_succ, Nat.add_comm 1]

theorem parseRecs_skip (flash : Nat → Nat) (recs : List InitRecord) (k : Nat) :
    ∀ i, Holds flash i (recordBytes recs) →
      (recordBytes (parseRecs flash (recs.length + k) i)).length =
        (recordBytes recs).length +
          (recordBytes (parseRecs flash k (i + (recordBytes recs).length))).length := by
  induction recs with
  | nil => intro i _; simp [recordBytes]
  | cons r rs ih =>
    intro i h
    have hb : Holds flash i (r.args.length :: r.delayMs :: r.opcode ::
        (r.args ++ recordBytes rs)) := by
      simpa [recordBytes, InitRecord.bytes] using h
    have e0 : pgm_read_byte flash i = r.args.length := hb.head
    have hrest : Holds flash (i + 3 + r.args.length) (recordBytes rs) := by
      have := hb.tail.tail.tail.right
      simpa [Nat.add_assoc] using this
    have hlen : (r :: rs).length + k = (rs.length + k) + 1 := by
      simp only [List.length_cons]; omega
    rw [hlen]
    simp only [parseRecs, recordBytes, InitRecord.bytes, List.length_append, List.length_cons,
      List.length_map, List.length_range, e0]
    rw [ih (i + 3 + r.args.length) hrest]
    have : i + 3 + r.args.length + (recordBytes rs).length =
        i + (r.args.length + 1 + 1 + 1 + (recordBytes rs).length) := by omega
    rw [this]
    omega

theorem parseRecs_next (flash : Nat → Nat) (k j : Nat) :
    3 + pgm_read_byte flash j ≤ (recordBytes (parseRecs flash (k + 1) j)).length := by
  simp only [parseRecs, recordBytes, InitRecord.bytes, List.length_append, List.length_cons,
    List.length_map, List.length_range]
  omega

/-! ## Properties of the driver -/

/-- C1: on every well-formed init table (count byte, then that many records
`[argCount, delayMs, opcode, args...]`, every field a byte) `ILI9341_Init` returns and
its transmit calls are exactly, record by record in table order, one
`ILI9341_TransmitCmmd(opcode)` followed by `argCount` calls `ILI9341_TransmitData` with
the stored arguments in stored order; this holds whether plain `char` is signed or not,
hence also for `argCount` in 128..255, and it holds for the built-in table. -/
theorem init_transmits_follow_table (recs : List InitRecord) (hwf : WellFormed recs)
    (beyond : Nat → Nat) (p : Pins) (sgn : Bool) (s : Regs) :
    (∃ tr s', ILI9341_Init (flashOf (tableBytes recs) beyond) p sgn s = some (tr, s') ∧
      transmits tr = expectedTransmits recs) ∧
    (∃ tr s', ILI9341_Init (flashOf INIT_ILI9341 beyond) p sgn s = some (tr, s') ∧
      transmits tr = expectedTransmits INIT_records) := by
  refine ⟨init_transmits beyond p sgn recs s hwf, ?_⟩
  rw [← init_records_table]
  exact init_transmits beyond p sgn INIT_records s init_records_wf

set_option maxRecDepth 100000 in
/-- Witness of C1: a table whose single record declares 200 arguments, run with a signed
plain `char` from the power-on state. -/
theorem init_transmits_follow_table_witness :
    WellFormed wideRecords ∧
    ((∃ tr s', ILI9341_Init (flashOf (tableBytes wideRecords) (fun _ => 0)) samplePins true
          powerOn = some (tr, s') ∧
        transmits tr = expectedTransmits wideRecords) ∧
      (∃ tr s', ILI9341_Init (flashOf INIT_ILI9341 (fun _ => 0)) samplePins true powerOn =
          some (tr, s') ∧
        transmits tr = expectedTransmits INIT_records)) :=
  ⟨by decide, init_transmits_follow_table wideRecords (by decide) (fun _ => 0) samplePins true
    powerOn⟩

/-- C4: the built-in table is well formed (its count byte is 14, the number of records
present, and the records' `argCount` fields account for every remaining byte), so
`ILI9341_Init` returns having fetched each byte of the table exactly once, at the
offsets 0, 1, ..., length-1 in that order, and never at or beyond the table's length. -/
theorem builtin_table_read_once (beyond : Nat → Nat) (p : Pins) (sgn : Bool) (s : Regs) :
    INIT_ILI9341 = tableBytes INIT_records ∧ INIT_ILI9341.head? = some 14 ∧
    INIT_records.length = 14 ∧ WellFormed INIT_records ∧
    ∃ tr s', ILI9341_Init (flashOf INIT_ILI9341 beyond) p sgn s = some (tr, s') ∧
      readIdx tr = List.range INIT_ILI9341.length ∧ readVals tr = INIT_ILI9341 ∧
      ∀ i ∈ readIdx tr, i < INIT_ILI9341.length := by
  refine ⟨init_records_table.symm, rfl, rfl, init_records_wf, ?_⟩
  obtain ⟨tr, s', h1, h2, h3⟩ := init_reads beyond p sgn INIT_records s init_records_wf
  rw [init_records_table] at h1 h2 h3
  refine ⟨tr, s', h1, h2, h3, ?_⟩
  intro i hi
  rw [h2] at hi
  exact List.mem_range.mp hi

/-- C5: `ILI9341_Delay(t)` returns after exactly `t` one-millisecond waits for every
`t` in 0..65535 (none for `t = 0`); on every well-formed table the waits of
`ILI9341_Init` total the sum of the records' `delayMs` bytes; on the built-in table the
total is 180 ms. -/
theorem delay_total (t : Nat) (ht : t < 65536) (recs : List InitRecord)
    (hwf : WellFormed recs) (beyond : Nat → Nat) (p : Pins) (sgn : Bool) (s : Regs) :
    ILI9341_Delay t = some (List.replicate t (Event.delayMs 1)) ∧
    (∃ tr s', ILI9341_Init (flashOf (tableBytes recs) beyond) p sgn s = some (tr, s') ∧
      msWaits tr = totalDelay recs) ∧
    (∃ tr s', ILI9341_Init (flashOf INIT_ILI9341 beyond) p sgn s = some (tr, s') ∧
      msWaits tr = 10 + 150 + 20) := by
  refine ⟨ILI9341_Delay_eq t ht, init_waits beyond p sgn recs s hwf, ?_⟩
  obtain ⟨tr, s', h1, h2⟩ := init_waits beyond p sgn INIT_records s init_records_wf
  rw [init_records_table] at h1
  exact ⟨tr, s', h1, by rw [h2]; decide⟩

/-- Witness of C5: no wait at all for `t = 0`, and the built-in records. -/
theorem delay_total_witness :
    (0 : Nat) < 65536 ∧ WellFormed INIT_records ∧
    (ILI9341_Delay 0 = some (List.replicate 0 (Event.delayMs 1)) ∧
      (∃ tr s', ILI9341_Init (flashOf (tableBytes INIT_records) (fun _ => 0)) samplePins true
          powerOn = some (tr, s') ∧
        msWaits tr = totalDelay INIT_records) ∧
      (∃ tr s', ILI9341_Init (flashOf INIT_ILI9341 (fun _ => 0)) samplePins true powerOn =
          some (tr, s') ∧
        msWaits tr = 10 + 150 + 20)) :=
  ⟨by decide, by decide, delay_total 0 (by decide) INIT_records (by decide) (fun _ => 0)
    samplePins true powerOn⟩



/-- C3: for every argument, every register state and every pin assignment inside the
8-bit control port, both `ILI9341_TransmitCmmd` and `ILI9341_TransmitData` return with
the chip-select, data/command and write-strobe bits of the control port high. -/
theorem transmit_returns_idle (p : Pins) (c : Int) (s : Regs)
    (hcs : p.cs < 8) (hrs : p.rs < 8) (hwr : p.wr < 8) :
    (high (ILI9341_TransmitCmmd p c s).2.portControl p.cs = true ∧
      high (ILI9341_TransmitCmmd p c s).2.portControl p.rs = true ∧
      high (ILI9341_TransmitCmmd p c s).2.portControl p.wr = true) ∧
    (high (ILI9341_TransmitData p c s).2.portControl p.cs = true ∧
      high (ILI9341_TransmitData p c s).2.portControl p.rs = true ∧
      high (ILI9341_TransmitData p c s).2.portControl p.wr = true) := by
  rw [transmitCmmd_regs, transmitData_regs]
  simp [settle, high, testBit_idle, hcs, hrs, hwr]

/-- Witness of C3: byte 0xFF passed as the signed `char` -1, all control lines low
before the call. -/
theorem transmit_returns_idle_witness :
    samplePins.cs < 8 ∧ samplePins.rs < 8 ∧ samplePins.wr < 8 ∧
    ((high (ILI9341_TransmitCmmd samplePins (-1) powerOn).2.portControl samplePins.cs = true ∧
      high (ILI9341_TransmitCmmd samplePins (-1) powerOn).2.portControl samplePins.rs = true ∧
      high (ILI9341_TransmitCmmd samplePins (-1) powerOn).2.portControl samplePins.wr = true) ∧
    (high (ILI9341_TransmitData samplePins (-1) powerOn).2.portControl samplePins.cs = true ∧
      high (ILI9341_TransmitData samplePins (-1) powerOn).2.portControl samplePins.rs = true ∧
      high (ILI9341_TransmitData samplePins (-1) powerOn).2.portControl samplePins.wr = true)) :=
  ⟨by decide, by decide, by decide,
    transmit_returns_idle samplePins (-1) powerOn (by decide) (by decide) (by decide)⟩

/-- C6: from every register state and for every pin assignment, `ILI9341_Init` run a
second time from the registers the first run left returns with exactly those registers. -/
theorem init_idempotent (beyond : Nat → Nat) (p : Pins) (sgn : Bool) (s : Regs) :
    ∃ t1 s1 t2 s2,
      ILI9341_Init (flashOf INIT_ILI9341 beyond) p sgn s = some (t1, s1) ∧
      ILI9341_Init (flashOf INIT_ILI9341 beyond) p sgn s1 = some (t2, s2) ∧ s2 = s1 := by
  rw [← init_records_table]
  obtain ⟨t1, h1⟩ := init_regs beyond p sgn INIT_records s init_records_wf
  obtain ⟨t2, h2⟩ := init_regs beyond p sgn INIT_records
    (settle p (lastByte INIT_records) (ILI9341_InitPortsWithRES p s).2) init_records_wf
  exact ⟨t1, _, t2, _, h1, h2, settle_ports_fixed p _ s⟩

/-- C8, at the power-on state with the sample pins: `ILI9341_InitPortsWithRES` stores
0b10111 to the control direction register, so RST, RS, WR and RD are outputs while the
chip-select bit stays clear (an input); the data direction register is 0xFF. -/
theorem initPorts_leaves_cs_input :
    (ILI9341_InitPortsWithRES samplePins powerOn).2.ddrControl = 0b10111 ∧
    high (ILI9341_InitPortsWithRES samplePins powerOn).2.ddrControl samplePins.cs = false ∧
    high (ILI9341_InitPortsWithRES samplePins powerOn).2.ddrControl samplePins.rst = true ∧
    high (ILI9341_InitPortsWithRES samplePins powerOn).2.ddrControl samplePins.rs = true ∧
    high (ILI9341_InitPortsWithRES samplePins powerOn).2.ddrControl samplePins.wr = true ∧
    high (ILI9341_InitPortsWithRES samplePins powerOn).2.ddrControl samplePins.rd = true ∧
    (ILI9341_InitPortsWithRES samplePins powerOn).2.ddrData = 0xFF := by
  decide


set_option maxRecDepth 100000 in
/-- C2, counterexample: take the registers a first run from power-on leaves (reset line
high) and run `ILI9341_Init` again with the sample pins.  The events before the first
`ILI9341_TransmitCmmd` call hold one delay only, and every store to the control port
has the reset bit set, as the initial port value has: the reset line is never low, and
the sequence "reset high, delay, reset low, delay, reset high, delay" does not occur
before the first command. -/
theorem reset_sequence_absent :
    (ILI9341_Init (flashOf INIT_ILI9341 (fun _ => 0)) samplePins true powerOn).map
        (fun r => r.2) = some afterFirstRun ∧
    high afterFirstRun.portControl samplePins.rst = true ∧
    (ILI9341_Init (flashOf INIT_ILI9341 (fun _ => 0)) samplePins true afterFirstRun).map
        (fun r => beforeFirstCmmd r.1) =
      some [.read 0 14, .write .ddrControl 0b10111, .delayUs 100, .write .portControl 0b11111,
        .write .portControl 0b11111, .write .ddrData 0xFF, .read 1 0, .read 2 10, .read 3 1] ∧
    (ILI9341_Init (flashOf INIT_ILI9341 (fun _ => 0)) samplePins true afterFirstRun).map
        (fun r => occursInOrder (resetSequence samplePins) (beforeFirstCmmd r.1)) =
      some false := by
  decide

/-- C2, amended: in every run of `ILI9341_Init`, from any register state, the events
before the first `ILI9341_TransmitCmmd` call are exactly: the fetch of the count byte,
the store that makes the reset pin an output, one 100 microsecond delay, two stores to
the control port that both have the reset bit set, the store of 0xFF to the data
direction register, and the three header fetches of the first record; the first command
transmitted after them is opcode 0x01.  On the reset line this means: from the direction
store on the line is driven at the level of its port bit on entry (low from power-on,
high if the bit was set), that level is held through the delay, then the line is driven
high and stays high; no delay follows. -/
theorem reset_before_first_command (beyond : Nat → Nat) (p : Pins) (sgn : Bool) (s : Regs)
    (hrst : p.rst < 8) :
    ∃ tr s' rest,
      ILI9341_Init (flashOf INIT_ILI9341 beyond) p sgn s = some (tr, s') ∧
      tr = beforeFirstCmmd tr ++ Event.cmmd 1 :: rest ∧
      beforeFirstCmmd tr =
        [.read 0 14, .write .ddrControl (dirMask p s.ddrControl), .delayUs 100,
          .write .portControl (setBit s.portControl p.rst),
          .write .portControl (raised p s.portControl), .write .ddrData 0xFF,
          .read 1 0, .read 2 10, .read 3 1] ∧
      high (dirMask p s.ddrControl) p.rst = true ∧
      high (setBit s.portControl p.rst) p.rst = true ∧
      high (raised p s.portControl) p.rst = true ∧
      (states s (beforeFirstCmmd tr)).map (rstLine p) =
        [rstLine p s, some (high s.portControl p.rst), some (high s.portControl p.rst),
          some true, some true, some true, some true, some true, some true] := by
  obtain ⟨rest, hrest⟩ : ∃ rest,
      (recordsTrace p sgn 1 INIT_records (ILI9341_InitPortsWithRES p s).2).1 =
        Event.read 1 0 :: Event.read 2 10 :: Event.read 3 1 :: Event.cmmd 1 :: rest := by
    cases sgn <;> exact ⟨_, rfl⟩
  have hpre : beforeFirstCmmd (Event.read 0 INIT_records.length ::
      (ILI9341_InitPortsWithRES p s).1 ++
        (recordsTrace p sgn 1 INIT_records (ILI9341_InitPortsWithRES p s).2).1) =
      [.read 0 14, .write .ddrControl (dirMask p s.ddrControl), .delayUs 100,
        .write .portControl (setBit s.portControl p.rst),
        .write .portControl (raised p s.portControl), .write .ddrData 0xFF,
        .read 1 0, .read 2 10, .read 3 1] := by
    rw [hrest]
    rfl
  have hd : (dirMask p s.ddrControl).testBit p.rst = true := by
    simp [testBit_dirMask, hrst]
  have hs : (setBit s.portControl p.rst).testBit p.rst = true := by
    simp [testBit_setBit, hrst]
  have hr : (raised p s.portControl).testBit p.rst = true := by
    simp [testBit_raised, hrst]
  rw [← init_records_table, init_table beyond p sgn INIT_records s init_records_wf]
  refine ⟨_, _, rest, rfl, ?_, hpre, hd, hs, hr, ?_⟩
  · rw [hpre, hrest]
    rfl
  · rw [hpre]
    simp [states, Regs.step, rstLine, high, hd, hs, hr]

/-- Witness of C2 (amended): the run from the power-on state with the sample pins; the
reset line is not driven on entry, low from the direction store through the delay, and
high from the first control-port store on. -/
theorem reset_before_first_command_witness :
    samplePins.rst < 8 ∧
    ∃ tr s' rest,
      ILI9341_Init (flashOf INIT_ILI9341 (fun _ => 0)) samplePins true powerOn =
        some (tr, s') ∧
      tr = beforeFirstCmmd tr ++ Event.cmmd 1 :: rest ∧
      beforeFirstCmmd tr =
        [.read 0 14, .write .ddrControl (dirMask samplePins powerOn.ddrControl), .delayUs 100,
          .write .portControl (setBit powerOn.portControl samplePins.rst),
          .write .portControl (raised samplePins powerOn.portControl), .write .ddrData 0xFF,
          .read 1 0, .read 2 10, .read 3 1] ∧
      high (dirMask samplePins powerOn.ddrControl) samplePins.rst = true ∧
      high (setBit powerOn.portControl samplePins.rst) samplePins.rst = true ∧
      high (raised samplePins powerOn.portControl) samplePins.rst = true ∧
      (states powerOn (beforeFirstCmmd tr)).map (rstLine samplePins) =
        [none, some false, some false, some true, some true, some true, some true, some true,
          some true] :=
  ⟨by decide, reset_before_first_command (fun _ => 0) samplePins true powerOn (by decide)⟩

set_option maxRecDepth 100000 in
/-- C10, counterexample: on the table `[1, 1, 150, 0x11]` followed in program memory by
the byte 0x77, the sequencer fetches offset 4, beyond the table's four bytes, and passes
the byte found there to `ILI9341_TransmitData`; it does not stop after the command. -/
theorem malformed_table_not_rejected :
    (ILI9341_Init (flashOf malformedTable (fun _ => 0x77)) samplePins true powerOn).map
        (fun r => (transmits r.1, readIdx r.1, msWaits r.1)) =
      some ([.command 0x11, .argument 0x77], [0, 1, 2, 3, 4], 150) ∧
    ¬ ∃ tr s',
      ILI9341_Init (flashOf malformedTable (fun _ => 0x77)) samplePins true powerOn =
        some (tr, s') ∧
      transmits tr = [.command 0x11] ∧ ∀ i ∈ readIdx tr, i < malformedTable.length := by
  have h : (ILI9341_Init (flashOf malformedTable (fun _ => 0x77)) samplePins true powerOn).map
      (fun r => (transmits r.1, readIdx r.1, msWaits r.1)) =
      some ([.command 0x11, .argument 0x77], [0, 1, 2, 3, 4], 150) := by decide
  refine ⟨h, ?_⟩
  rintro ⟨tr, s', h1, h2, -⟩
  rw [h1] at h
  simp [h2] at h

/-- C10, amended: on the table `[1, 1, 150, 0x11]`, whatever lies behind it in program
memory, `ILI9341_Init` returns after, in this order: the port set-up, the fetches of
offsets 1, 2, 3, one `ILI9341_TransmitCmmd(0x11)`, the fetch of offset 4 (the first byte
beyond the table), one `ILI9341_TransmitData` carrying the byte found there, and then
150 one-millisecond waits; the offsets fetched are 0, 1, 2, 3, 4. -/
theorem malformed_table_reads_beyond (beyond : Nat → Nat) (p : Pins) (sgn : Bool) (s : Regs) :
    ∃ tr s',
      ILI9341_Init (flashOf malformedTable beyond) p sgn s = some (tr, s') ∧
      transmits tr = [.command 0x11, .argument (beyond 4 % 256)] ∧
      readIdx tr = [0, 1, 2, 3, 4] ∧ msWaits tr = 150 ∧
      calls tr =
        Event.cmmd (toChar sgn 0x11) :: Event.data (toChar sgn ((beyond 4 % 256 : Nat) : Int)) ::
          List.replicate 150 (Event.delayMs 1) ∧
      tr =
        Event.read 0 1 :: ((ILI9341_InitPortsWithRES p s).1 ++
          (Event.read 1 1 :: Event.read 2 150 :: Event.read 3 0x11 ::
            ((ILI9341_TransmitCmmd p (toChar sgn 0x11) (ILI9341_InitPortsWithRES p s).2).1 ++
              (Event.read 4 (beyond 4 % 256) ::
                ((ILI9341_TransmitData p (toChar sgn ((beyond 4 % 256 : Nat) : Int))
                    (ILI9341_TransmitCmmd p (toChar sgn 0x11)
                      (ILI9341_InitPortsWithRES p s).2).2).1 ++
                  List.replicate 150 (Event.delayMs 1)))))) := by
  have hwf : WellFormed [⟨150, 0x11, [beyond 4 % 256]⟩] := by
    refine ⟨by simp, ?_⟩
    intro r hr
    simp only [List.mem_singleton] at hr
    subst hr
    refine ⟨by simp, by simp, by simp, ?_⟩
    intro a ha
    simp only [List.mem_singleton] at ha
    subst ha
    exact Nat.mod_lt _ (by norm_num)
  refine ⟨_, _, init_eq _ p sgn _ s hwf (holds_malformed beyond), ?_, ?_, ?_, ?_, ?_⟩
  · have e : ∀ (i v : Nat) (es : List Event), transmits (Event.read i v :: es) = transmits es :=
      fun _ _ _ => rfl
    rw [List.cons_append, e, transmits_append, transmits_initPorts,
      transmits_records p sgn _ _ _ hwf.2]
    rfl
  · simp [readIdx, readIdx_append, readIdx_initPorts, readIdx_records, recordBytes,
      InitRecord.bytes, List.range'_succ]
  · simp [msWaits, msWaits_append, msWaits_initPorts, msWaits_records, totalDelay]
  · rw [calls_init]
    simp [recordCalls]
  · rw [recordsTrace_cons]
    simp [argsTrace, recordsTrace, ILI9341_TransmitData, ILI9341_TransmitCmmd]

set_option maxRecDepth 100000 in
/-- C7, counterexample: the hardware completes the transfer of `tx[0]` presenting 0x5A
in `SPDR` with bit 6 of `SPSR` set; `spi_transfer` stores 0 to `rx[0]`, not 0x5A. -/
theorem spi_rx_zeroed_on_collision :
    (SpiHal.spi_transfer 2 SpiHal.collidingHw (fun _ => 0xAA) 1 SpiHal.sampleSpi).map
        (fun r => (r.1, r.2.rx 0)) =
      some ([.writePortB 0xFB, .delayUs 100, .clearDone, .writeSPDR 0xAA, .isr 0x40 0x5A,
        .poll 1, .store 0 0, .writePortB 0xFF, .delayUs 100], 0) := by
  decide

/-- C7, amended: for every length in 0..65535 and every input buffer, when the hardware
completes each of the `len` transfers, `spi_transfer` returns and `rx[i]`, for each
`i < len`, holds the value presented in `SPDR` at the completion of the transfer of
`tx[i]` if bit 6 (0x40) of `SPSR` is clear at that completion, and 0 if it is set;
entries of `rx` from `len` on are untouched. -/
theorem spi_transfer_stores (pb2 : Nat) (hw : Nat → Option SpiHal.HwResp) (tx : Nat → Nat)
    (len : Nat) (st : SpiHal.Spi) (resp : Nat → SpiHal.HwResp) (hlen : len < 65536)
    (hhw : ∀ k, k < len → hw (st.sent + k) = some (resp k)) :
    ∃ tr st', SpiHal.spi_transfer pb2 hw tx len st = some (tr, st') ∧
      (∀ i, i < len → st'.rx i =
        if ((resp i).spsr % 256) &&& 0x40 ≠ 0 then 0 else (resp i).spdr % 256) ∧
      (∀ i, len ≤ i → st'.rx i = st.rx i) := by
  obtain ⟨st', e, -, r⟩ := SpiHal.spi_transfer_eq pb2 hw tx len st resp hlen hhw
  refine ⟨_, st', e, ?_, ?_⟩
  · intro i hi
    rw [r i, if_pos hi]
    rfl
  · intro i hi
    rw [r i, if_neg (by omega)]

/-- Witness of C7 (amended): two bytes, the second completion with bit 6 of `SPSR`
set. -/
theorem spi_transfer_stores_witness :
    (2 : Nat) < 65536 ∧
    (∀ k, k < 2 → (fun k => some (⟨0, 0x40 * k, 0x5A⟩ : SpiHal.HwResp))
      (SpiHal.sampleSpi.sent + k) = some ((fun k => ⟨0, 0x40 * k, 0x5A⟩) k)) ∧
    ∃ tr st', SpiHal.spi_transfer 2 (fun k => some ⟨0, 0x40 * k, 0x5A⟩) SpiHal.scenarioTx 2
        SpiHal.sampleSpi = some (tr, st') ∧
      (∀ i, i < 2 → st'.rx i =
        if (((fun k => (⟨0, 0x40 * k, 0x5A⟩ : SpiHal.HwResp)) i).spsr % 256) &&& 0x40 ≠ 0 then 0
        else ((fun k => (⟨0, 0x40 * k, 0x5A⟩ : SpiHal.HwResp)) i).spdr % 256) ∧
      (∀ i, 2 ≤ i → st'.rx i = SpiHal.sampleSpi.rx i) :=
  ⟨by decide, fun k _ => by simp [SpiHal.sampleSpi],
    spi_transfer_stores 2 (fun k => some ⟨0, 0x40 * k, 0x5A⟩) SpiHal.scenarioTx 2
      SpiHal.sampleSpi (fun k => ⟨0, 0x40 * k, 0x5A⟩) (by decide)
      (fun k _ => by simp [SpiHal.sampleSpi])⟩

set_option maxRecDepth 100000 in
/-- C9, counterexample: the hardware completes the transfer of byte 0 and never signals
the completion of byte 1.  `spi_transfer` of one byte returns; `spi_transfer` of two
bytes has no result: the wait loop of the second `spi_send` never exits, so no second
cycle is completed and the store that puts the mode-select bit high is never reached. -/
theorem spi_transfer_hangs :
    (SpiHal.spi_transfer 2 SpiHal.stallingHw SpiHal.scenarioTx 1 SpiHal.sampleSpi).isSome =
      true ∧
    (SpiHal.spi_transfer 2 SpiHal.stallingHw SpiHal.scenarioTx 2 SpiHal.sampleSpi).isSome =
      false ∧
    ¬ ∃ r, SpiHal.spi_transfer 2 SpiHal.stallingHw SpiHal.scenarioTx 2 SpiHal.sampleSpi =
      some r := by
  have h : (SpiHal.spi_transfer 2 SpiHal.stallingHw SpiHal.scenarioTx 2
      SpiHal.sampleSpi).isSome = false := by decide
  refine ⟨by decide, h, ?_⟩
  rintro ⟨r, hr⟩
  rw [hr] at h
  exact absurd h (by simp)

/-- C9, amended: for every `len` in 0..65535, when the hardware completes each of the
`len` transfers, `spi_transfer` returns after exactly: the store that puts the
mode-select bit of `PORTB` low and a 100 microsecond delay; `len` send cycles for
`tx[0]`, ..., `tx[len-1]` in index order, each clearing the flag, writing the byte to
`SPDR`, testing the flag until the handler has run, and storing the received byte; the
store that puts the mode-select bit high and a 100 microsecond delay.  No cycle stores
to `PORTB`, no other bit of `PORTB` is changed by either store, and for `len = 0` there
is no cycle. -/
theorem spi_transfer_cycles (pb2 : Nat) (hw : Nat → Option SpiHal.HwResp) (tx : Nat → Nat)
    (len : Nat) (st : SpiHal.Spi) (resp : Nat → SpiHal.HwResp) (hlen : len < 65536)
    (hhw : ∀ k, k < len → hw (st.sent + k) = some (resp k))
    (hpb : pb2 < 8) (hport : st.portB < 256) :
    ∃ st', SpiHal.spi_transfer pb2 hw tx len st =
        some (.writePortB (clrBit st.portB pb2) :: .delayUs 100 ::
          (SpiHal.cycles resp tx len 0 ++ [.writePortB st'.portB, .delayUs 100]), st') ∧
      (∀ e ∈ SpiHal.cycles resp tx len 0, SpiHal.isPortWrite e = false) ∧
      high (clrBit st.portB pb2) pb2 = false ∧
      high st'.portB pb2 = true ∧
      (∀ j, j ≠ pb2 → high (clrBit st.portB pb2) j = high st.portB j ∧
        high st'.portB j = high st.portB j) ∧
      (len = 0 → SpiHal.cycles resp tx len 0 = []) := by
  obtain ⟨st', e, hp, -⟩ := SpiHal.spi_transfer_eq pb2 hw tx len st resp hlen hhw
  refine ⟨st', by rw [hp]; exact e, SpiHal.cycles_no_port_write resp tx len 0, ?_, ?_, ?_, ?_⟩
  · simp [high, testBit_clrBit]
  · simp [high, hp, testBit_setBit, hpb]
  · intro j hj
    by_cases h8 : j < 8
    · simp [high, hp, testBit_setBit, testBit_clrBit, h8, hj]
    · have hz : st.portB.testBit j = false :=
        Nat.testBit_eq_false_of_lt (lt_of_lt_of_le hport
          (by
            have : 2 ^ 8 ≤ 2 ^ j := Nat.pow_le_pow_right (by norm_num) (by omega)
            simpa using this))
      simp [high, hp, testBit_setBit, testBit_clrBit, h8, hz]
  · rintro rfl
    rfl

/-- Witness of C9 (amended): the scenario `spi_transfer([0xAA, 0xBB], rx, 2)` with `PORTB2 = 2`. -/
theorem spi_transfer_cycles_witness :
    (2 : Nat) < 65536 ∧
    (∀ k, k < 2 → (fun k => some (SpiHal.scenarioResp k)) (SpiHal.sampleSpi.sent + k) =
      some (SpiHal.scenarioResp k)) ∧
    (2 : Nat) < 8 ∧ SpiHal.sampleSpi.portB < 256 ∧
    ∃ st', SpiHal.spi_transfer 2 (fun k => some (SpiHal.scenarioResp k)) SpiHal.scenarioTx 2
        SpiHal.sampleSpi =
        some (.writePortB (clrBit SpiHal.sampleSpi.portB 2) :: .delayUs 100 ::
          (SpiHal.cycles SpiHal.scenarioResp SpiHal.scenarioTx 2 0 ++
            [.writePortB st'.portB, .delayUs 100]), st') ∧
      (∀ e ∈ SpiHal.cycles SpiHal.scenarioResp SpiHal.scenarioTx 2 0,
        SpiHal.isPortWrite e = false) ∧
      high (clrBit SpiHal.sampleSpi.portB 2) 2 = false ∧
      high st'.portB 2 = true ∧
      (∀ j, j ≠ 2 → high (clrBit SpiHal.sampleSpi.portB 2) j = high SpiHal.sampleSpi.portB j ∧
        high st'.portB j = high SpiHal.sampleSpi.portB j) ∧
      ((2 : Nat) = 0 → SpiHal.cycles SpiHal.scenarioResp SpiHal.scenarioTx 2 0 = []) :=
  ⟨by decide, fun k _ => by simp [SpiHal.sampleSpi], by decide, by decide,
    spi_transfer_cycles 2 (fun k => some (SpiHal.scenarioResp k)) SpiHal.scenarioTx 2
      SpiHal.sampleSpi SpiHal.scenarioResp (by decide) (fun k _ => by simp [SpiHal.sampleSpi])
      (by decide) (by decide)⟩


set_option maxRecDepth 100000 in
/-- C14: in every run of `ILI9341_Init` on the built-in table, 10 one-millisecond waits
(more than 5) lie between the Software Reset command (0x01) and the next command
transmitted (0x28), and 150 one-millisecond waits (more than 120) lie between the Sleep
Out command (0x11) and the next command transmitted, Display On (0x29). -/
theorem settle_times_respected (beyond : Nat → Nat) (p : Pins) (sgn : Bool) (s : Regs) :
    ∃ tr s', ILI9341_Init (flashOf INIT_ILI9341 beyond) p sgn s = some (tr, s') ∧
      (afterCmmd 0x01 tr).map (fun es => (msWaits (beforeFirstCmmd es), firstCmmd es)) =
        some (10, some 0x28) ∧ 5 < 10 ∧
      (afterCmmd 0x11 tr).map (fun es => (msWaits (beforeFirstCmmd es), firstCmmd es)) =
        some (150, some 0x29) ∧ 120 < 150 := by
  obtain ⟨tr, s', h, hc⟩ := init_calls beyond p sgn INIT_records s init_records_wf
  rw [init_records_table] at h
  have key : ∀ op, (afterCmmd op tr).map
      (fun es => (msWaits (beforeFirstCmmd es), firstCmmd es)) =
      (afterCmmd op (recordCalls sgn INIT_records)).map
        (fun es => (msWaits (beforeFirstCmmd es), firstCmmd es)) := by
    intro op
    rw [← hc, afterCmmd_calls, Option.map_map]
    congr 1
    funext es
    simp only [Function.comp, beforeFirstCmmd_calls, msWaits_calls, firstCmmd_calls]
  refine ⟨tr, s', h, ?_, by decide, ?_, by decide⟩
  · rw [key]
    cases sgn <;> decide
  · rw [key]
    cases sgn <;> decide

set_option maxRecDepth 100000 in
/-- C15: in every run of `ILI9341_Init` on the built-in table, the data bytes
transmitted after the Gamma Set command (0x26) and before the next command are 0x00 and
0x1B, the arguments of the Frame Rate Control record above it, not the single byte 0x01
that the comment of the record documents. -/
theorem gamma_set_arguments (beyond : Nat → Nat) (p : Pins) (sgn : Bool) (s : Regs) :
    ∃ tr s', ILI9341_Init (flashOf INIT_ILI9341 beyond) p sgn s = some (tr, s') ∧
      (afterCmmd 0x26 tr).map (fun es => transmits (beforeFirstCmmd es)) =
        some [.argument 0x00, .argument 0x1B] ∧
      (afterCmmd 0x26 tr).map (fun es => transmits (beforeFirstCmmd es)) ≠
        some [.argument 0x01] := by
  obtain ⟨tr, s', h, hc⟩ := init_calls beyond p sgn INIT_records s init_records_wf
  rw [init_records_table] at h
  have key : (afterCmmd 0x26 tr).map (fun es => transmits (beforeFirstCmmd es)) =
      some [.argument 0x00, .argument 0x1B] := by
    have e : (afterCmmd 0x26 tr).map (fun es => transmits (beforeFirstCmmd es)) =
        (afterCmmd 0x26 (recordCalls sgn INIT_records)).map
          (fun es => transmits (beforeFirstCmmd es)) := by
      rw [← hc, afterCmmd_calls, Option.map_map]
      congr 1
      funext es
      simp only [Function.comp, beforeFirstCmmd_calls, transmits_calls]
    rw [e]
    cases sgn <;> decide
  refine ⟨tr, s', h, key, ?_⟩
  rw [key]
  decide


/-- C16: for every byte, every 8-bit register state and every pin assignment, in every
state during `ILI9341_TransmitCmmd` and `ILI9341_TransmitData` and on return, each bit
of the control port other than CS, RS and WR (so the reset and read-strobe bits, when
those pins are distinct from the three) has its value on entry and both direction
registers are unchanged; the calls store to the control port and the data port only,
and on return the data port holds the transmitted byte. -/
theorem transmit_frame (p : Pins) (sgn : Bool) (b : Nat) (s : Regs) (hb : b < 256)
    (hpc : s.portControl < 256)
    (hrst : p.rst ≠ p.cs ∧ p.rst ≠ p.rs ∧ p.rst ≠ p.wr)
    (hrd : p.rd ≠ p.cs ∧ p.rd ≠ p.rs ∧ p.rd ≠ p.wr) :
    (∀ t ∈ states s (ILI9341_TransmitCmmd p (toChar sgn b) s).1,
      (∀ j, j ≠ p.cs → j ≠ p.rs → j ≠ p.wr → high t.portControl j = high s.portControl j) ∧
      high t.portControl p.rst = high s.portControl p.rst ∧
      high t.portControl p.rd = high s.portControl p.rd ∧
      t.ddrControl = s.ddrControl ∧ t.ddrData = s.ddrData) ∧
    (∀ t ∈ states s (ILI9341_TransmitData p (toChar sgn b) s).1,
      (∀ j, j ≠ p.cs → j ≠ p.rs → j ≠ p.wr → high t.portControl j = high s.portControl j) ∧
      high t.portControl p.rst = high s.portControl p.rst ∧
      high t.portControl p.rd = high s.portControl p.rd ∧
      t.ddrControl = s.ddrControl ∧ t.ddrData = s.ddrData) ∧
    (∀ e ∈ (ILI9341_TransmitCmmd p (toChar sgn b) s).1,
      target e = none ∨ target e = some .portControl ∨ target e = some .portData) ∧
    (∀ e ∈ (ILI9341_TransmitData p (toChar sgn b) s).1,
      target e = none ∨ target e = some .portControl ∨ target e = some .portData) ∧
    (states s (ILI9341_TransmitCmmd p (toChar sgn b) s).1).getLast? =
      some (ILI9341_TransmitCmmd p (toChar sgn b) s).2 ∧
    (states s (ILI9341_TransmitData p (toChar sgn b) s).1).getLast? =
      some (ILI9341_TransmitData p (toChar sgn b) s).2 ∧
    (ILI9341_TransmitCmmd p (toChar sgn b) s).2.portData = b ∧
    (ILI9341_TransmitData p (toChar sgn b) s).2.portData = b := by
  have hbyte : toU8 (toChar sgn (b : Int)) = b := by rw [toU8_toChar, toU8_ofNat b hb]
  -- a control-port value reached by stores that touch CS, RS, WR only
  have keep : ∀ v : Nat, v < 256 →
      (∀ j, j ≠ p.cs → j ≠ p.rs → j ≠ p.wr → high v j = high s.portControl j) →
      ∀ q, (q = p.cs ∨ q = p.rs ∨ q = p.wr) →
        (∀ j, j ≠ p.cs → j ≠ p.rs → j ≠ p.wr →
          high (setBit v q) j = high s.portControl j) ∧
        (∀ j, j ≠ p.cs → j ≠ p.rs → j ≠ p.wr →
          high (clrBit v q) j = high s.portControl j) := by
    intro v hv hsame q hq
    constructor
    · intro j h1 h2 h3
      rw [high_setBit_other v q j hv (by rcases hq with rfl | rfl | rfl <;> assumption)]
      exact hsame j h1 h2 h3
    · intro j h1 h2 h3
      rw [high_clrBit_other v q j hv (by rcases hq with rfl | rfl | rfl <;> assumption)]
      exact hsame j h1 h2 h3
  have h0 : ∀ j, j ≠ p.cs → j ≠ p.rs → j ≠ p.wr →
      high s.portControl j = high s.portControl j := fun _ _ _ _ => rfl
  have pack : ∀ t : Regs, t.ddrControl = s.ddrControl → t.ddrData = s.ddrData →
      (∀ j, j ≠ p.cs → j ≠ p.rs → j ≠ p.wr → high t.portControl j = high s.portControl j) →
      (∀ j, j ≠ p.cs → j ≠ p.rs → j ≠ p.wr → high t.portControl j = high s.portControl j) ∧
      high t.portControl p.rst = high s.portControl p.rst ∧
      high t.portControl p.rd = high s.portControl p.rd ∧
      t.ddrControl = s.ddrControl ∧ t.ddrData = s.ddrData :=
    fun t e1 e2 h => ⟨h, h _ hrst.1 hrst.2.1 hrst.2.2, h _ hrd.1 hrd.2.1 hrd.2.2, e1, e2⟩
  -- the command call
  have a1 := (keep _ hpc h0 p.cs (Or.inl rfl)).2
  have a2 := (keep _ (clrBit_lt _ _) a1 p.rs (Or.inr (Or.inl rfl))).2
  have a3 := (keep _ (clrBit_lt _ _) a2 p.wr (Or.inr (Or.inr rfl))).2
  have a4 := (keep _ (clrBit_lt _ _) a3 p.wr (Or.inr (Or.inr rfl))).1
  have a5 := (keep _ (setBit_lt _ _) a4 p.rs (Or.inr (Or.inl rfl))).1
  have a6 := (keep _ (setBit_lt _ _) a5 p.cs (Or.inl rfl)).1
  -- the data call
  have d2 := (keep _ (clrBit_lt _ _) a1 p.rs (Or.inr (Or.inl rfl))).1
  have d3 := (keep _ (setBit_lt _ _) d2 p.wr (Or.inr (Or.inr rfl))).2
  have d4 := (keep _ (clrBit_lt _ _) d3 p.wr (Or.inr (Or.inr rfl))).1
  have d5 := (keep _ (setBit_lt _ _) d4 p.cs (Or.inl rfl)).1
  refine ⟨?_, ?_, ?_, ?_, ?_, ?_, ?_, ?_⟩
  · intro t ht
    rw [states_transmitCmmd] at ht
    simp only [List.mem_cons, List.mem_singleton, List.not_mem_nil, or_false] at ht
    rcases ht with rfl | rfl | rfl | rfl | rfl | rfl | rfl | rfl
    · exact pack _ rfl rfl h0
    · exact pack _ rfl rfl a1
    · exact pack _ rfl rfl a2
    · exact pack _ rfl rfl a2
    · exact pack _ rfl rfl a3
    · exact pack _ rfl rfl a4
    · exact pack _ rfl rfl a5
    · exact pack _ rfl rfl a6
  · intro t ht
    rw [states_transmitData] at ht
    simp only [List.mem_cons, List.mem_singleton, List.not_mem_nil, or_false] at ht
    rcases ht with rfl | rfl | rfl | rfl | rfl | rfl | rfl
    · exact pack _ rfl rfl h0
    · exact pack _ rfl rfl a1
    · exact pack _ rfl rfl d2
    · exact pack _ rfl rfl d2
    · exact pack _ rfl rfl d3
    · exact pack _ rfl rfl d4
    · exact pack _ rfl rfl d5
  · intro e he
    simp only [ILI9341_TransmitCmmd, List.mem_cons, List.mem_singleton, List.not_mem_nil,
      or_false] at he
    rcases he with rfl | rfl | rfl | rfl | rfl | rfl | rfl | rfl <;> simp [target]
  · intro e he
    simp only [ILI9341_TransmitData, List.mem_cons, List.mem_singleton, List.not_mem_nil,
      or_false] at he
    rcases he with rfl | rfl | rfl | rfl | rfl | rfl | rfl <;> simp [target]
  · rw [states_transmitCmmd]; rfl
  · rw [states_transmitData]; rfl
  · exact hbyte
  · exact hbyte

/-- Witness of C16: byte 0xA5 through a signed `char`, control port 0b01000 on entry. -/
theorem transmit_frame_witness :
    (0xA5 : Nat) < 256 ∧ (⟨0, 0b01000, 0, 0⟩ : Regs).portControl < 256 ∧
    (samplePins.rst ≠ samplePins.cs ∧ samplePins.rst ≠ samplePins.rs ∧
      samplePins.rst ≠ samplePins.wr) ∧
    (samplePins.rd ≠ samplePins.cs ∧ samplePins.rd ≠ samplePins.rs ∧
      samplePins.rd ≠ samplePins.wr) ∧
    (ILI9341_TransmitCmmd samplePins (toChar true 0xA5) ⟨0, 0b01000, 0, 0⟩).2.portData = 0xA5 ∧
    (ILI9341_TransmitData samplePins (toChar true 0xA5) ⟨0, 0b01000, 0, 0⟩).2.portData = 0xA5 :=
  ⟨by decide, by decide, by decide, by decide,
    (transmit_frame samplePins true 0xA5 ⟨0, 0b01000, 0, 0⟩ (by decide) (by decide) (by decide)
      (by decide)).2.2.2.2.2.2⟩


/-- C11, counterexample: enter `ILI9341_TransmitCmmd(0xA5)` with the write strobe low
and the other control lines high.  The strobe is low from entry through five states and
is never taken from high to low; after the first store (chip-select low) the strobe is
low while the data bus still holds 0 and RS is high.  Each entry lists the levels of
WR, CS, RS and the data bus. -/
theorem strobe_low_on_entry :
    (states strobeLowEntry
        (ILI9341_TransmitCmmd samplePins (toChar true 0xA5) strobeLowEntry).1).map
      (fun t => (high t.portControl samplePins.wr, high t.portControl samplePins.cs,
        high t.portControl samplePins.rs, t.portData)) =
      [(false, true, true, 0), (false, false, true, 0), (false, false, false, 0),
        (false, false, false, 0xA5), (false, false, false, 0xA5), (true, false, false, 0xA5),
        (true, false, true, 0xA5), (true, true, true, 0xA5)] ∧
    ¬ ∀ t ∈ states strobeLowEntry
        (ILI9341_TransmitCmmd samplePins (toChar true 0xA5) strobeLowEntry).1,
      high t.portControl samplePins.wr = false →
        t.portData = 0xA5 ∧ high t.portControl samplePins.cs = false ∧
          high t.portControl samplePins.rs = false := by
  refine ⟨by decide, ?_⟩
  intro h
  have h1 := h { strobeLowEntry with portControl := clrBit strobeLowEntry.portControl 3 }
    (by rw [states_transmitCmmd]; simp [samplePins]) (by decide)
  exact absurd h1.1 (by decide)

/-- C11, amended: for every byte `b` (through a plain `char` of either signedness),
distinct CS, RS, WR pins inside the port, and every register state in which the write
strobe is high on entry, `ILI9341_TransmitCmmd(b)` makes one store to the data port, of
`b`, after the CS and RS stores and before the store that takes the strobe low; the
strobe is low in exactly one state of the call, the one that store produces, and high
in every state after it; in each state where the strobe is low the data bus holds `b`
and CS and RS are low. -/
theorem transmitCmmd_strobe (p : Pins) (sgn : Bool) (b : Nat) (s : Regs) (hb : b < 256)
    (h8 : p.cs < 8 ∧ p.rs < 8 ∧ p.wr < 8)
    (hd : p.cs ≠ p.rs ∧ p.cs ≠ p.wr ∧ p.rs ≠ p.wr)
    (hwr : high s.portControl p.wr = true) :
    (ILI9341_TransmitCmmd p (toChar sgn b) s).1.map target =
      [none, some .portControl, some .portControl, some .portData, some .portControl,
        some .portControl, some .portControl, some .portControl] ∧
    (states s (ILI9341_TransmitCmmd p (toChar sgn b) s).1).map
        (fun t => (high t.portControl p.wr, t.portData)) =
      [(true, s.portData), (true, s.portData), (true, s.portData), (true, b), (false, b),
        (true, b), (true, b), (true, b)] ∧
    ∀ t ∈ states s (ILI9341_TransmitCmmd p (toChar sgn b) s).1,
      high t.portControl p.wr = false →
        t.portData = b ∧ high t.portControl p.cs = false ∧
          high t.portControl p.rs = false := by
  obtain ⟨c8, r8, w8⟩ := h8
  obtain ⟨hcr, hcw, hrw⟩ := hd
  have hbyte : toU8 (toChar sgn (b : Int)) = b := by rw [toU8_toChar, toU8_ofNat b hb]
  have hw : s.portControl.testBit p.wr = true := hwr
  refine ⟨rfl, ?_, ?_⟩
  · rw [states_transmitCmmd]
    simp [ILI9341_TransmitCmmd, high, testBit_setBit, testBit_clrBit, hbyte, c8, r8, w8,
      hcr, hcw, hrw, Ne.symm hcr, Ne.symm hcw, Ne.symm hrw, hw]
  · intro t ht hlow
    rw [states_transmitCmmd] at ht
    simp only [List.mem_cons, List.mem_singleton, List.not_mem_nil, or_false] at ht
    rcases ht with rfl | rfl | rfl | rfl | rfl | rfl | rfl | rfl <;>
      simp [ILI9341_TransmitCmmd, high, testBit_setBit, testBit_clrBit, hbyte, c8, r8, w8,
        hcr, hcw, hrw, Ne.symm hcr, Ne.symm hcw, Ne.symm hrw, hw] at hlow ⊢

/-- Witness of C11 (amended): byte 0xA5 through a signed `char`, all control lines high
on entry. -/
theorem transmitCmmd_strobe_witness :
    (0xA5 : Nat) < 256 ∧
    (samplePins.cs < 8 ∧ samplePins.rs < 8 ∧ samplePins.wr < 8) ∧
    (samplePins.cs ≠ samplePins.rs ∧ samplePins.cs ≠ samplePins.wr ∧
      samplePins.rs ≠ samplePins.wr) ∧
    high idleEntry.portControl samplePins.wr = true ∧
    (states idleEntry (ILI9341_TransmitCmmd samplePins (toChar true 0xA5) idleEntry).1).map
        (fun t => (high t.portControl samplePins.wr, t.portData)) =
      [(true, idleEntry.portData), (true, idleEntry.portData), (true, idleEntry.portData),
        (true, 0xA5), (false, 0xA5), (true, 0xA5), (true, 0xA5), (true, 0xA5)] :=
  ⟨by decide, by decide, by decide, by decide,
    (transmitCmmd_strobe samplePins true 0xA5 idleEntry (by decide) (by decide) (by decide)
      (by decide)).2.1⟩

/-- C12: for every byte `b`, distinct CS, RS, WR pins inside the port, and every
register state with CS, RS and WR high on entry, `ILI9341_TransmitData(b)` goes through
the same steps as `ILI9341_TransmitCmmd(b)`: chip-select low, data port := `b`, strobe
low, strobe high, chip-select high, in that order, but with RS high in every state of
the call (its RS store changes nothing), where the command call has RS low from its
second store to its last but one.  Each entry lists the levels of CS, RS, WR and the
data bus after an event; where the strobe is low the data bus holds `b`, CS is low and
RS is high. -/
theorem transmitData_framing (p : Pins) (sgn : Bool) (b : Nat) (s : Regs) (hb : b < 256)
    (h8 : p.cs < 8 ∧ p.rs < 8 ∧ p.wr < 8)
    (hd : p.cs ≠ p.rs ∧ p.cs ≠ p.wr ∧ p.rs ≠ p.wr)
    (hidle : high s.portControl p.cs = true ∧ high s.portControl p.rs = true ∧
      high s.portControl p.wr = true) :
    (ILI9341_TransmitData p (toChar sgn b) s).1.map target =
      [none, some .portControl, some .portControl, some .portData, some .portControl,
        some .portControl, some .portControl] ∧
    (states s (ILI9341_TransmitData p (toChar sgn b) s).1).map (lines p) =
      [(true, true, true, s.portData), (false, true, true, s.portData),
        (false, true, true, s.portData), (false, true, true, b), (false, true, false, b),
        (false, true, true, b), (true, true, true, b)] ∧
    (ILI9341_TransmitCmmd p (toChar sgn b) s).1.map target =
      [none, some .portControl, some .portControl, some .portData, some .portControl,
        some .portControl, some .portControl, some .portControl] ∧
    (states s (ILI9341_TransmitCmmd p (toChar sgn b) s).1).map (lines p) =
      [(true, true, true, s.portData), (false, true, true, s.portData),
        (false, false, true, s.portData), (false, false, true, b), (false, false, false, b),
        (false, false, true, b), (false, true, true, b), (true, true, true, b)] ∧
    (∀ t ∈ states s (ILI9341_TransmitData p (toChar sgn b) s).1,
      high t.portControl p.rs = true) ∧
    (∀ t ∈ states s (ILI9341_TransmitData p (toChar sgn b) s).1,
      high t.portControl p.wr = false →
        t.portData = b ∧ high t.portControl p.cs = false ∧
          high t.portControl p.rs = true) := by
  obtain ⟨c8, r8, w8⟩ := h8
  obtain ⟨hcr, hcw, hrw⟩ := hd
  obtain ⟨ic, ir, iw⟩ := hidle
  have hbyte : toU8 (toChar sgn (b : Int)) = b := by rw [toU8_toChar, toU8_ofNat b hb]
  have hc : s.portControl.testBit p.cs = true := ic
  have hr : s.portControl.testBit p.rs = true := ir
  have hw : s.portControl.testBit p.wr = true := iw
  refine ⟨rfl, ?_, rfl, ?_, ?_, ?_⟩
  · rw [states_transmitData]
    simp [ILI9341_TransmitData, lines, high, testBit_setBit, testBit_clrBit, hbyte, c8, r8, w8,
      hcr, hcw, hrw, Ne.symm hcr, Ne.symm hcw, Ne.symm hrw, hc, hr, hw]
  · rw [states_transmitCmmd]
    simp [ILI9341_TransmitCmmd, lines, high, testBit_setBit, testBit_clrBit, hbyte, c8, r8, w8,
      hcr, hcw, hrw, Ne.symm hcr, Ne.symm hcw, Ne.symm hrw, hc, hr, hw]
  · intro t ht
    rw [states_transmitData] at ht
    simp only [List.mem_cons, List.mem_singleton, List.not_mem_nil, or_false] at ht
    rcases ht with rfl | rfl | rfl | rfl | rfl | rfl | rfl <;>
      simp [ILI9341_TransmitData, high, testBit_setBit, testBit_clrBit, c8, r8, w8,
        hcr, hcw, hrw, Ne.symm hcr, Ne.symm hcw, Ne.symm hrw, hc, hr, hw]
  · intro t ht hlow
    rw [states_transmitData] at ht
    simp only [List.mem_cons, List.mem_singleton, List.not_mem_nil, or_false] at ht
    rcases ht with rfl | rfl | rfl | rfl | rfl | rfl | rfl <;>
      simp [ILI9341_TransmitData, high, testBit_setBit, testBit_clrBit, hbyte, c8, r8, w8,
        hcr, hcw, hrw, Ne.symm hcr, Ne.symm hcw, Ne.symm hrw, hc, hr, hw] at hlow ⊢

/-- Witness of C12: byte 0xA5 through a signed `char`, from the idle state with 0x3C
on the data port. -/
theorem transmitData_framing_witness :
    (0xA5 : Nat) < 256 ∧
    (samplePins.cs < 8 ∧ samplePins.rs < 8 ∧ samplePins.wr < 8) ∧
    (samplePins.cs ≠ samplePins.rs ∧ samplePins.cs ≠ samplePins.wr ∧
      samplePins.rs ≠ samplePins.wr) ∧
    (high idleEntry.portControl samplePins.cs = true ∧
      high idleEntry.portControl samplePins.rs = true ∧
      high idleEntry.portControl samplePins.wr = true) ∧
    (states idleEntry (ILI9341_TransmitData samplePins (toChar true 0xA5) idleEntry).1).map
        (lines samplePins) =
      [(true, true, true, idleEntry.portData), (false, true, true, idleEntry.portData),
        (false, true, true, idleEntry.portData), (false, true, true, 0xA5),
        (false, true, false, 0xA5), (false, true, true, 0xA5), (true, true, true, 0xA5)] :=
  ⟨by decide, by decide, by decide, by decide,
    (transmitData_framing samplePins true 0xA5 idleEntry (by decide) (by decide) (by decide)
      (by decide)).2.1⟩


/-- C13: take a table whose count byte exceeds the number of complete records behind
it, the bytes left after those records holding no further complete record (fewer than
three header bytes, or a header declaring more argument bytes than remain).  Then
`ILI9341_Init` does not stop at the end of the table and reports nothing: it returns
after fetching, among others, the offset equal to the table's length, the first one
beyond the table. -/
theorem overrun_reads_beyond (count : Nat) (recs : List InitRecord) (tail : List Nat)
    (beyond : Nat → Nat) (p : Pins) (sgn : Bool) (s : Regs)
    (hcount : count < 256) (hwf : ∀ r ∈ recs, r.WellFormed) (htail : ∀ b ∈ tail, b < 256)
    (hmore : recs.length < count) (hinc : incomplete tail = true) :
    ∃ tr s',
      ILI9341_Init (flashOf (count :: (recordBytes recs ++ tail)) beyond) p sgn s =
        some (tr, s') ∧
      (count :: (recordBytes recs ++ tail)).length ∈ readIdx tr ∧
      ∃ i ∈ readIdx tr, (count :: (recordBytes recs ++ tail)).length ≤ i := by
  obtain ⟨tr, s', hrun, hread⟩ :=
    init_any (flashOf (count :: (recordBytes recs ++ tail)) beyond) p sgn s
  have hbytes : ∀ b ∈ count :: (recordBytes recs ++ tail), b < 256 := by
    intro b hb
    simp only [List.mem_cons, List.mem_append] at hb
    rcases hb with rfl | hb | hb
    · exact hcount
    · have key : ∀ rs : List InitRecord, (∀ r ∈ rs, r.WellFormed) →
          ∀ x ∈ recordBytes rs, x < 256 := by
        intro rs
        induction rs with
        | nil => intro _ x hx; simp [recordBytes] at hx
        | cons r rs ih =>
          intro hr x hx
          obtain ⟨h1, h2, h3, h4⟩ := hr r (by simp)
          simp only [recordBytes, InitRecord.bytes, List.mem_append, List.mem_cons] at hx
          rcases hx with (rfl | rfl | rfl | hx) | hx
          · exact h1
          · exact h2
          · exact h3
          · exact h4 x hx
          · exact ih (fun q hq => hr q (List.mem_cons_of_mem _ hq)) x hx
      exact key recs hwf b hb
    · exact htail b hb
  have hh := holds_flashOf (count :: (recordBytes recs ++ tail)) beyond hbytes
  have h0 : pgm_read_byte (flashOf (count :: (recordBytes recs ++ tail)) beyond) 0 = count :=
    hh.head
  have hrecs : Holds (flashOf (count :: (recordBytes recs ++ tail)) beyond) 1
      (recordBytes recs) := by
    have := hh.tail.left
    simpa using this
  have htl : Holds (flashOf (count :: (recordBytes recs ++ tail)) beyond)
      (1 + (recordBytes recs).length) tail := by
    have := hh.tail.right
    simpa using this
  obtain ⟨k, hk⟩ : ∃ k, count = recs.length + (k + 1) := ⟨count - recs.length - 1, by omega⟩
  generalize flashOf (count :: (recordBytes recs ++ tail)) beyond = F at hrun hread h0 hrecs htl ⊢
  have hcnt : parseRecs F count 1 = parseRecs F (recs.length + (k + 1)) 1 := by rw [hk]
  have hskip := parseRecs_skip F recs (k + 1) 1 hrecs
  have hn := parseRecs_next F k (1 + (recordBytes recs).length)
  have hlong : (count :: (recordBytes recs ++ tail)).length <
      1 + (recordBytes (parseRecs F (pgm_read_byte F 0) 1)).length := by
    rw [h0, hcnt, hskip]
    simp only [List.length_cons, List.length_append]
    match tail, hinc, htl with
    | [], _, _ => simp only [List.length_nil]; omega
    | [_], _, _ => simp only [List.length_cons, List.length_nil]; omega
    | [_, _], _, _ => simp only [List.length_cons, List.length_nil]; omega
    | a :: _ :: _ :: rest, hinc, htl =>
      have ha : pgm_read_byte F (1 + (recordBytes recs).length) = a := htl.head
      have hlt : rest.length < a := by simpa [incomplete] using hinc
      rw [ha] at hn
      simp only [List.length_cons]
      omega
  have hmem : (count :: (recordBytes recs ++ tail)).length ∈ readIdx tr := by
    rw [hread]
    exact List.mem_range.mpr hlong
  exact ⟨tr, s', hrun, hmem, _, hmem, le_refl _⟩

/-- Witness of C13: count 2 with one complete record present, followed by a header that
declares one argument and carries none. -/
theorem overrun_reads_beyond_witness :
    (2 : Nat) < 256 ∧ (∀ r ∈ [(⟨10, 0x01, []⟩ : InitRecord)], r.WellFormed) ∧
    (∀ b ∈ [1, 150, 0x11], b < 256) ∧
    [(⟨10, 0x01, []⟩ : InitRecord)].length < 2 ∧ incomplete [1, 150, 0x11] = true ∧
    ∃ tr s',
      ILI9341_Init (flashOf (2 :: (recordBytes [⟨10, 0x01, []⟩] ++ [1, 150, 0x11]))
          (fun _ => 0)) samplePins true powerOn = some (tr, s') ∧
      (2 :: (recordBytes [⟨10, 0x01, []⟩] ++ [1, 150, 0x11])).length ∈ readIdx tr ∧
      ∃ i ∈ readIdx tr, (2 :: (recordBytes [⟨10, 0x01, []⟩] ++ [1, 150, 0x11])).length ≤ i :=
  ⟨by decide, by decide, by decide, by decide, by decide,
    overrun_reads_beyond 2 [⟨10, 0x01, []⟩] [1, 150, 0x11] (fun _ => 0) samplePins true powerOn
      (by decide) (by decide) (by decide) (by decide) (by decide)⟩


end ILI9341
